import Mathlib

/-!
# Condition register (`flipflop/register.go`)

A shallow embedding of the fixed-size bitset of the `flipflop` package and of its
transition algorithms, followed by the properties proved about them.

Conventions of the embedding:
* a Go `uint64` word is a `Nat` below `2 ^ 64`; the only operation of the source that can
  leave that range, the left shift of `shift`, is reduced modulo `2 ^ 64`;
* a Go `[CAP]uint64` array is a list of words; the type invariant (length `CAP`, every
  word below `2 ^ 64`) is the predicate `register.WF`;
* a Go panic is an error of `Except Fault`: `Fault.overflow` for the explicit `panic` of
  `offset`, `Fault.indexOutOfRange` for the run-time bounds check of `r[idx]`.
-/

namespace flipflop

/-! ## Constants -/

def CAP : Nat := 64

def WORDSIZE : Nat := 64

def MAXREG : Nat := CAP * WORDSIZE

/-- The largest `uint64`, `math.MaxUint64`. -/
def MaxUint64 : Nat := 2 ^ 64 - 1

/-! ## Failures -/

/-- The two ways an operation of the register can panic. -/
inductive Fault where
  /-- The explicit `panic` of `offset`. -/
  | overflow
  /-- The run-time panic of an array access `r[idx]` with `idx ≥ CAP`. -/
  | indexOutOfRange
  deriving DecidableEq, Repr

deriving instance DecidableEq for Except

/-! ## The register -/

/-- The Go type `register`, `[CAP]uint64`, as the list of its words. -/
structure register where
  words : List Nat
  deriving DecidableEq, Repr

/-- The invariant of the Go type `[CAP]uint64`: `CAP` words, each a `uint64`. -/
def register.WF (r : register) : Prop :=
  r.words.length = CAP ∧ ∀ w ∈ r.words, w < 2 ^ 64

instance (r : register) : Decidable r.WF := by
  unfold register.WF
  exact inferInstance

/-- The zero value `register{}`: every word is `0`. -/
def register.zero : register := ⟨List.replicate CAP 0⟩

/-- The array read `r[idx]`; it panics when `idx` is not below the length. -/
def register.word (r : register) (idx : Nat) : Except Fault Nat :=
  match r.words[idx]? with
  | some w => .ok w
  | none => .error .indexOutOfRange

/-- The array write `r[idx] = w`, on an index that was read before. -/
def register.store (r : register) (idx w : Nat) : register :=
  ⟨r.words.set idx w⟩

/-- The Go operator `x &^ y` (bit clear) on `uint64`. -/
def bitClear (x y : Nat) : Nat := x &&& (MaxUint64 ^^^ y)

/-! ## `offset` and `shift` -/

def offset (idx : Nat) : Except Fault (Nat × Nat) :=
  if idx > MAXREG then .error .overflow
  else .ok (idx / WORDSIZE, idx % WORDSIZE)

def shift (offs : Nat) : Nat := (1 <<< offs) % 2 ^ 64

/-! ## Construction -/

/-- The loop `for i := 0; i < CAP; i++ { r[i] = math.MaxUint64 }`, from counter `i`
with `n` iterations left. -/
def allClosedLoop : Nat → Nat → register → register
  | 0, _, r => r
  | n + 1, i, r => allClosedLoop n (i + 1) (r.store i MaxUint64)

def registerWithAllClosed : register :=
  allClosedLoop CAP 0 register.zero

/-! ## Close -/

/-- The loop of `registerClose` over the remaining indices, with the register and the
list `out` built so far. -/
def registerCloseLoop : register → List Nat → List Nat → Except Fault (register × List Nat)
  | r, out, [] => .ok (r, out)
  | r, out, i :: rest =>
    match offset i with
    | .error e => .error e
    | .ok (idx, offs) =>
      let shifted := shift offs
      match r.word idx with
      | .error e => .error e
      | .ok w =>
        let out1 := if w &&& shifted ≠ shifted then out ++ [i] else out
        registerCloseLoop (r.store idx (w ||| shifted)) out1 rest

def registerClose (r : register) (indices : List Nat) : Except Fault (register × List Nat) :=
  registerCloseLoop r [] indices

def registerClosed (r : register) (index : Nat) : Except Fault Bool :=
  match offset index with
  | .error e => .error e
  | .ok (idx, offs) =>
    let shifted := shift offs
    match r.word idx with
    | .error e => .error e
    | .ok w => .ok (decide (w &&& shifted = shifted))

/-! ## Open -/

/-- The loop of `registerOpen` over the remaining indices. -/
def registerOpenLoop : register → List Nat → List Nat → Except Fault (register × List Nat)
  | r, out, [] => .ok (r, out)
  | r, out, i :: rest =>
    match offset i with
    | .error e => .error e
    | .ok (idx, offs) =>
      let shifted := shift offs
      match r.word idx with
      | .error e => .error e
      | .ok w =>
        let out1 := if w &&& shifted = shifted then out ++ [i] else out
        registerOpenLoop (r.store idx (bitClear w shifted)) out1 rest

def registerOpen (r : register) (indices : List Nat) : Except Fault (register × List Nat) :=
  registerOpenLoop r [] indices

def registerOpened (r : register) (index : Nat) : Except Fault Bool :=
  match offset index with
  | .error e => .error e
  | .ok (idx, offs) =>
    let shifted := shift offs
    match r.word idx with
    | .error e => .error e
    | .ok w => .ok (decide (w &&& shifted ≠ shifted))

/-! ## Toggle -/

/-- The loop of `registerToggle` over the remaining indices, with the register and the
lists `closed` and `opened` built so far. -/
def registerToggleLoop :
    register → List Nat → List Nat → List Nat → Except Fault (register × List Nat × List Nat)
  | r, closed, opened, [] => .ok (r, closed, opened)
  | r, closed, opened, i :: rest =>
    match offset i with
    | .error e => .error e
    | .ok (idx, offs) =>
      let shifted := shift offs
      match r.word idx with
      | .error e => .error e
      | .ok w =>
        if w &&& shifted ≠ shifted then
          registerToggleLoop (r.store idx (w ||| shifted)) (closed ++ [i]) opened rest
        else
          registerToggleLoop (r.store idx (bitClear w shifted)) closed (opened ++ [i]) rest

/-- The result is `(register, closedList, openedList)`, in the order of the Go `return`. -/
def registerToggle (r : register) (indices : List Nat) :
    Except Fault (register × List Nat × List Nat) :=
  registerToggleLoop r [] [] indices

/-! ## Batch predicates -/

def registerAllClosed : register → List Nat → Except Fault Bool
  | _, [] => .ok true
  | r, i :: rest =>
    match registerClosed r i with
    | .error e => .error e
    | .ok b => if !b then .ok false else registerAllClosed r rest

def registerAnyClosed : register → List Nat → Except Fault Bool
  | _, [] => .ok false
  | r, i :: rest =>
    match registerClosed r i with
    | .error e => .error e
    | .ok b => if b then .ok true else registerAnyClosed r rest

def registerAllOpened : register → List Nat → Except Fault Bool
  | _, [] => .ok true
  | r, i :: rest =>
    match registerOpened r i with
    | .error e => .error e
    | .ok b => if !b then .ok false else registerAllOpened r rest

def registerAnyOpened : register → List Nat → Except Fault Bool
  | _, [] => .ok false
  | r, i :: rest =>
    match registerOpened r i with
    | .error e => .error e
    | .ok b => if b then .ok true else registerAnyOpened r rest

/-! ## Delegate (`delegate.go`, not among the sources) -/

/-- Modelled from the spec: the cancellation context handed to every call (package
`context` of the Go library). Only its identity and whether it is already cancelled or past
its deadline at the time of the call are kept. -/
structure Context where
  id : Nat
  done : Bool
  deriving DecidableEq, Repr

/-- Modelled from the spec: the same context after `cancel()` or after its deadline. -/
def Context.cancel (ctx : Context) : Context := ⟨ctx.id, true⟩

/-- Modelled from the spec: the struct `changeEvent` of `delegate.go`, which is not among
the sources; `ctx`, `state` (the index) and `closed` are the fields `machine.go` reads. -/
structure changeEvent where
  ctx : Context
  state : Nat
  closed : Bool
  deriving DecidableEq, Repr

/-- Modelled from the spec: the struct `delegate` of `delegate.go`, which is not among the
sources. It owns the register and the event channel; the channel is the list of the events
sent so far, and the lock is left out, the calls being applied one after the other. -/
structure delegate where
  reg : register
  changeChan : List changeEvent
  deriving DecidableEq, Repr

/-- Modelled from the spec: `newDelegate` of `delegate.go`; a delegate is created with an
all-OPEN register, and nothing sent. -/
def newDelegate : delegate := ⟨register.zero, []⟩

/-- Modelled from the spec: `delegate.close` of `delegate.go`. A context that is already
cancelled or past its deadline makes the call a no-op; otherwise the register is closed on
the batch and one event, tagged with the context and `closed = true`, is sent per index
reported as changed. -/
def delegate.close (d : delegate) (ctx : Context) (indices : List Nat) :
    Except Fault delegate :=
  if ctx.done then .ok d
  else
    match registerClose d.reg indices with
    | .error e => .error e
    | .ok (r1, changed) =>
      .ok ⟨r1, d.changeChan ++ changed.map (fun i => ⟨ctx, i, true⟩)⟩

/-- Modelled from the spec: `delegate.open` of `delegate.go`, as `delegate.close` with
`registerOpen` and `closed = false`. -/
def delegate.open (d : delegate) (ctx : Context) (indices : List Nat) :
    Except Fault delegate :=
  if ctx.done then .ok d
  else
    match registerOpen d.reg indices with
    | .error e => .error e
    | .ok (r1, changed) =>
      .ok ⟨r1, d.changeChan ++ changed.map (fun i => ⟨ctx, i, false⟩)⟩

/-- Modelled from the spec: `delegate.toggle` of `delegate.go`, as `delegate.close` with
`registerToggle`; the events of the closed list are sent before those of the opened list
(the spec leaves their order open). -/
def delegate.toggle (d : delegate) (ctx : Context) (indices : List Nat) :
    Except Fault delegate :=
  if ctx.done then .ok d
  else
    match registerToggle d.reg indices with
    | .error e => .error e
    | .ok (r1, closed, opened) =>
      .ok ⟨r1, d.changeChan ++ closed.map (fun i => ⟨ctx, i, true⟩)
        ++ opened.map (fun i => ⟨ctx, i, false⟩)⟩

/-! ## Machine (`machine.go`)

The files `toggle/machine.go` and `flipflop/machine.go` are the same up to the name of the
struct, `machine` in the first and `flipFlop` in the second. A handler acts on a world `W`
that stands for everything a Go callback can touch. -/

/-- The type `func(ctx context.Context, idx uint, state bool)`. -/
abbrev ChangeHandler (W : Type) := Context → Nat → Bool → W → W

/-- The type `func(ctx context.Context, state bool)`. -/
abbrev SingleStateChangeHandler (W : Type) := Context → Bool → W → W

/-- The struct `machine`; the Go map `changeMap` is a partial function. -/
structure machine (W : Type) where
  delegate : delegate
  defaultChange : ChangeHandler W
  changeMap : Nat → Option (SingleStateChangeHandler W)

/-- The Go type `Option` of `machine.go`, by the three constructors the package offers. -/
inductive MachineOption (W : Type) where
  | WithDefaultChangeHandler (handler : ChangeHandler W)
  | WithSingleStateChangeHandler (handler : SingleStateChangeHandler W) (condition : Nat)
  | WithAllStatesClosed

/-- The closure an option stands for, applied to the machine under construction. -/
def MachineOption.apply {W : Type} (m : machine W) : MachineOption W → machine W
  | .WithDefaultChangeHandler handler => ⟨m.delegate, handler, m.changeMap⟩
  | .WithSingleStateChangeHandler handler condition =>
    ⟨m.delegate, m.defaultChange,
      fun i => if i = condition then some handler else m.changeMap i⟩
  | .WithAllStatesClosed =>
    ⟨⟨registerWithAllClosed, m.delegate.changeChan⟩, m.defaultChange, m.changeMap⟩

/-- The handler `func(context.Context, uint, bool) {}`. -/
def noopChangeHandler (W : Type) : ChangeHandler W := fun _ _ _ w => w

def NewMachine {W : Type} (opts : List (MachineOption W)) : machine W :=
  opts.foldl MachineOption.apply ⟨newDelegate, noopChangeHandler W, fun _ => none⟩

/-- A handler call started by a `go` statement of `Run`. -/
inductive Launch (W : Type) where
  | single (f : SingleStateChangeHandler W) (ctx : Context) (closed : Bool)
  | default (f : ChangeHandler W) (ctx : Context) (idx : Nat) (closed : Bool)

/-- The body of the loop of `Run` on a received event `c`: the `go` statements it
executes, in order. -/
def machine.dispatch {W : Type} (m : machine W) (c : changeEvent) : List (Launch W) :=
  match m.changeMap c.state with
  | some f => [Launch.single f c.ctx c.closed]
  | none => [Launch.default m.defaultChange c.ctx c.state c.closed]

/-- The loop of `Run` on the events it receives before its context is done: the `go`
statements executed, in order. -/
def machine.Run {W : Type} (m : machine W) : List changeEvent → List (Launch W)
  | [] => []
  | c :: rest => m.dispatch c ++ m.Run rest

def machine.Close {W : Type} (m : machine W) (ctx : Context) (conditions : List Nat) :
    Except Fault (machine W) :=
  match m.delegate.close ctx conditions with
  | .error e => .error e
  | .ok d => .ok ⟨d, m.defaultChange, m.changeMap⟩

def machine.Open {W : Type} (m : machine W) (ctx : Context) (conditions : List Nat) :
    Except Fault (machine W) :=
  match m.delegate.open ctx conditions with
  | .error e => .error e
  | .ok d => .ok ⟨d, m.defaultChange, m.changeMap⟩

def machine.Toggle {W : Type} (m : machine W) (ctx : Context) (conditions : List Nat) :
    Except Fault (machine W) :=
  match m.delegate.toggle ctx conditions with
  | .error e => .error e
  | .ok d => .ok ⟨d, m.defaultChange, m.changeMap⟩

/-! ## Specification-level definitions

The state of a single condition, the effect of one loop iteration on the register, the
first occurrences of a batch, and sequences of calls. -/

/-- The bit of condition `j` in `r`; `true` is CLOSED. -/
def register.bit (r : register) (j : Nat) : Bool :=
  (r.words.getD (j / WORDSIZE) 0).testBit (j % WORDSIZE)

/-- The register `r` after `r[i / WORDSIZE] |= 1 << (i % WORDSIZE)`. -/
def register.setBit (r : register) (i : Nat) : register :=
  r.store (i / WORDSIZE) (r.words.getD (i / WORDSIZE) 0 ||| 2 ^ (i % WORDSIZE))

/-- The register `r` after `r[i / WORDSIZE] &^= 1 << (i % WORDSIZE)`. -/
def register.clearBit (r : register) (i : Nat) : register :=
  r.store (i / WORDSIZE) (bitClear (r.words.getD (i / WORDSIZE) 0) (2 ^ (i % WORDSIZE)))

/-- The register `r` after one iteration of the toggle loop on index `i`. -/
def register.flipBit (r : register) (i : Nat) : register :=
  if r.bit i then r.clearBit i else r.setBit i

/-! ### Occurrences in a toggle batch -/

/-- The rank of the occurrence at position `p` of a batch: how many times its index occurs
among the first `p + 1` elements of the batch (`1` for a first occurrence). -/
def occurrenceRank (batch : List Nat) (p : Nat) : Nat :=
  (batch.take (p + 1)).count (batch.getD p 0)

/-- The rule for the occurrence at position `p` of a toggle batch: it lands in the closed
list when its index is open in `r` and its rank is odd, or closed in `r` and its rank is
even. -/
def landsInClosed (r : register) (batch : List Nat) (p : Nat) : Bool :=
  (decide (registerOpened r (batch.getD p 0) = .ok true) &&
      decide (occurrenceRank batch p % 2 = 1)) ||
    (decide (registerClosed r (batch.getD p 0) = .ok true) &&
      decide (occurrenceRank batch p % 2 = 0))

/-! ### First occurrences -/

/-- The elements of a batch, each once, in the order of their first occurrence. -/
def firstOccurrences : List Nat → List Nat
  | [] => []
  | x :: xs => x :: (firstOccurrences xs).filter (fun y => decide (y ≠ x))

/-! ### Sequences of close and open calls -/

/-- One call of a sequence: `registerClose` or `registerOpen` with its batch. -/
inductive Call where
  | doClose (batch : List Nat)
  | doOpen (batch : List Nat)
  deriving DecidableEq, Repr

/-- The batch of a call. -/
def Call.batch : Call → List Nat
  | .doClose b => b
  | .doOpen b => b

/-- Whether the call is a close. -/
def Call.isClose : Call → Bool
  | .doClose _ => true
  | .doOpen _ => false

/-- The register returned by the call on `r`; the changed list is dropped. -/
def Call.run (r : register) : Call → Except Fault register
  | .doClose b =>
    match registerClose r b with
    | .ok (r1, _) => .ok r1
    | .error e => .error e
  | .doOpen b =>
    match registerOpen r b with
    | .ok (r1, _) => .ok r1
    | .error e => .error e

/-- The calls applied in order, each on the register returned by the one before. -/
def runCalls : register → List Call → Except Fault register
  | r, [] => .ok r
  | r, c :: cs =>
    match c.run r with
    | .ok r1 => runCalls r1 cs
    | .error e => .error e

/-! ## Words and bits

The lemmas below relate the word-level code to the state of single conditions. -/

theorem shift_of_lt {o : Nat} (h : o < 64) : shift o = 2 ^ o := by
  unfold shift
  rw [Nat.one_shiftLeft]
  exact Nat.mod_eq_of_lt (Nat.pow_lt_pow_right (by norm_num) h)

theorem and_two_pow_eq_iff (w o : Nat) : w &&& 2 ^ o = 2 ^ o ↔ w.testBit o = true := by
  constructor
  · intro h
    have h1 := congrArg (fun x => x.testBit o) h
    simpa [Nat.testBit_and, Nat.testBit_two_pow_self] using h1
  · intro h
    apply Nat.eq_of_testBit_eq
    intro k
    rw [Nat.testBit_and, Nat.testBit_two_pow]
    by_cases hk : o = k
    · subst hk
      simp [h]
    · simp [hk]

theorem testBit_or_two_pow (w o k : Nat) :
    (w ||| 2 ^ o).testBit k = (w.testBit k || decide (o = k)) := by
  rw [Nat.testBit_or, Nat.testBit_two_pow]

theorem testBit_of_uint64 {w k : Nat} (hw : w < 2 ^ 64) (hk : 64 ≤ k) : w.testBit k = false :=
  Nat.testBit_lt_two_pow (lt_of_lt_of_le hw (Nat.pow_le_pow_right (by norm_num) hk))

theorem testBit_bitClear (w o k : Nat) (hw : w < 2 ^ 64) :
    (bitClear w (2 ^ o)).testBit k = (w.testBit k && !decide (o = k)) := by
  unfold bitClear MaxUint64
  rw [Nat.testBit_and, Nat.testBit_xor, Nat.testBit_two_pow_sub_one, Nat.testBit_two_pow]
  by_cases hk : k < 64
  · simp [hk]
  · rw [testBit_of_uint64 hw (by omega)]
    simp

theorem bitClear_lt (w s : Nat) (hw : w < 2 ^ 64) : bitClear w s < 2 ^ 64 := by
  unfold bitClear
  exact lt_of_le_of_lt Nat.and_le_left hw

theorem offset_of_lt {i : Nat} (h : i < MAXREG) :
    offset i = .ok (i / WORDSIZE, i % WORDSIZE) := by
  unfold offset
  rw [if_neg (by omega)]

theorem div_lt_CAP {i : Nat} (h : i < MAXREG) : i / WORDSIZE < CAP := by
  unfold MAXREG CAP WORDSIZE at *
  omega

theorem mod_lt_64 (i : Nat) : i % WORDSIZE < 64 := by
  unfold WORDSIZE
  omega

theorem register.word_of_lt {r : register} (hr : r.WF) {idx : Nat} (h : idx < CAP) :
    r.word idx = .ok (r.words.getD idx 0) := by
  have hl : idx < r.words.length := by rw [hr.1]; exact h
  unfold register.word
  rw [List.getD_eq_getElem?_getD, List.getElem?_eq_getElem hl]
  rfl

theorem register.getD_lt {r : register} (hr : r.WF) (idx : Nat) :
    r.words.getD idx 0 < 2 ^ 64 := by
  rw [List.getD_eq_getElem?_getD]
  by_cases hl : idx < r.words.length
  · rw [List.getElem?_eq_getElem hl]
    exact hr.2 _ (List.getElem_mem _)
  · rw [List.getElem?_eq_none (by omega)]
    simp

theorem register.store_WF {r : register} (hr : r.WF) (idx w : Nat) (hw : w < 2 ^ 64) :
    (r.store idx w).WF := by
  refine ⟨?_, ?_⟩
  · simp only [register.store, List.length_set]
    exact hr.1
  · intro x hx
    rcases List.mem_or_eq_of_mem_set hx with h | h
    · exact hr.2 x h
    · rw [h]
      exact hw

theorem two_pow_mod_lt (i : Nat) : 2 ^ (i % WORDSIZE) < 2 ^ 64 :=
  Nat.pow_lt_pow_right (by norm_num) (mod_lt_64 i)

theorem register.setBit_WF {r : register} (hr : r.WF) (i : Nat) : (r.setBit i).WF :=
  register.store_WF hr _ _ (Nat.or_lt_two_pow (register.getD_lt hr _) (two_pow_mod_lt i))

theorem register.clearBit_WF {r : register} (hr : r.WF) (i : Nat) : (r.clearBit i).WF :=
  register.store_WF hr _ _ (bitClear_lt _ _ (register.getD_lt hr _))

theorem register.getD_store {r : register} (hr : r.WF) {idx : Nat} (h : idx < CAP)
    (w k : Nat) :
    (r.store idx w).words.getD k 0 = if k = idx then w else r.words.getD k 0 := by
  have hl : idx < r.words.length := by rw [hr.1]; exact h
  simp only [register.store, List.getD_eq_getElem?_getD, List.getElem?_set]
  by_cases hk : k = idx
  · subst hk
    simp [hl]
  · have hk2 : ¬ idx = k := fun e => hk e.symm
    simp [hk, hk2]

theorem index_eq_iff (i j : Nat) :
    j = i ↔ j / WORDSIZE = i / WORDSIZE ∧ i % WORDSIZE = j % WORDSIZE := by
  unfold WORDSIZE
  omega

theorem register.bit_setBit {r : register} (hr : r.WF) {i : Nat} (hi : i < MAXREG) (j : Nat) :
    (r.setBit i).bit j = (r.bit j || decide (j = i)) := by
  unfold register.bit register.setBit
  rw [register.getD_store hr (div_lt_CAP hi)]
  by_cases hq : j / WORDSIZE = i / WORDSIZE
  · rw [if_pos hq, testBit_or_two_pow, hq]
    congr 1
    simp only [index_eq_iff i j, hq, true_and]
  · rw [if_neg hq]
    have : ¬ j = i := fun e => hq (by rw [e])
    simp [this]

theorem register.bit_clearBit {r : register} (hr : r.WF) {i : Nat} (hi : i < MAXREG) (j : Nat) :
    (r.clearBit i).bit j = (r.bit j && !decide (j = i)) := by
  unfold register.bit register.clearBit
  rw [register.getD_store hr (div_lt_CAP hi)]
  by_cases hq : j / WORDSIZE = i / WORDSIZE
  · rw [if_pos hq, testBit_bitClear _ _ _ (register.getD_lt hr _), hq]
    congr 2
    simp only [index_eq_iff i j, hq, true_and]
  · rw [if_neg hq]
    have : ¬ j = i := fun e => hq (by rw [e])
    simp [this]

/-- Two registers with the same bits are the same register. -/
theorem register.ext_bit {r s : register} (hr : r.WF) (hs : s.WF)
    (h : ∀ j, j < MAXREG → r.bit j = s.bit j) : r = s := by
  have hw : r.words = s.words := by
    apply List.ext_getElem (by rw [hr.1, hs.1])
    intro n h1 h2
    have hn : n < 64 := by
      have := hr.1
      unfold CAP at this
      omega
    apply Nat.eq_of_testBit_eq
    intro k
    by_cases hk : k < 64
    · have hj := h (n * 64 + k) (by unfold MAXREG CAP WORDSIZE; omega)
      unfold register.bit WORDSIZE at hj
      have e1 : (n * 64 + k) / 64 = n := by omega
      have e2 : (n * 64 + k) % 64 = k := by omega
      rw [e1, e2, List.getD_eq_getElem?_getD, List.getD_eq_getElem?_getD,
        List.getElem?_eq_getElem h1, List.getElem?_eq_getElem h2] at hj
      simpa using hj
    · rw [testBit_of_uint64 (hr.2 _ (List.getElem_mem _)) (by omega),
        testBit_of_uint64 (hs.2 _ (List.getElem_mem _)) (by omega)]
  cases r
  cases s
  simp only at hw
  rw [hw]

/-! ## One iteration of each loop, on a valid index -/

theorem registerClosed_eq {r : register} (hr : r.WF) {j : Nat} (hj : j < MAXREG) :
    registerClosed r j = .ok (r.bit j) := by
  unfold registerClosed
  simp only [offset_of_lt hj, register.word_of_lt hr (div_lt_CAP hj),
    shift_of_lt (mod_lt_64 j), and_two_pow_eq_iff]
  unfold register.bit
  simp

theorem registerOpened_eq {r : register} (hr : r.WF) {j : Nat} (hj : j < MAXREG) :
    registerOpened r j = .ok (!r.bit j) := by
  unfold registerOpened
  simp only [offset_of_lt hj, register.word_of_lt hr (div_lt_CAP hj),
    shift_of_lt (mod_lt_64 j), ne_eq, and_two_pow_eq_iff]
  unfold register.bit
  simp

theorem registerCloseLoop_cons {r : register} (hr : r.WF) {i : Nat} (hi : i < MAXREG)
    (out rest : List Nat) :
    registerCloseLoop r out (i :: rest)
      = registerCloseLoop (r.setBit i) (if r.bit i then out else out ++ [i]) rest := by
  rw [registerCloseLoop]
  simp only [offset_of_lt hi, register.word_of_lt hr (div_lt_CAP hi),
    shift_of_lt (mod_lt_64 i), ne_eq, and_two_pow_eq_iff]
  unfold register.bit register.setBit
  by_cases hb : (r.words[i / WORDSIZE]?.getD 0).testBit (i % WORDSIZE) = true
  · simp [hb]
  · simp [hb]

theorem registerOpenLoop_cons {r : register} (hr : r.WF) {i : Nat} (hi : i < MAXREG)
    (out rest : List Nat) :
    registerOpenLoop r out (i :: rest)
      = registerOpenLoop (r.clearBit i) (if r.bit i then out ++ [i] else out) rest := by
  rw [registerOpenLoop]
  simp only [offset_of_lt hi, register.word_of_lt hr (div_lt_CAP hi),
    shift_of_lt (mod_lt_64 i), and_two_pow_eq_iff]
  unfold register.bit register.clearBit
  by_cases hb : (r.words[i / WORDSIZE]?.getD 0).testBit (i % WORDSIZE) = true
  · simp [hb]
  · simp [hb]

theorem registerToggleLoop_cons {r : register} (hr : r.WF) {i : Nat} (hi : i < MAXREG)
    (closed opened rest : List Nat) :
    registerToggleLoop r closed opened (i :: rest)
      = if r.bit i then registerToggleLoop (r.clearBit i) closed (opened ++ [i]) rest
        else registerToggleLoop (r.setBit i) (closed ++ [i]) opened rest := by
  rw [registerToggleLoop]
  simp only [offset_of_lt hi, register.word_of_lt hr (div_lt_CAP hi),
    shift_of_lt (mod_lt_64 i), ne_eq, and_two_pow_eq_iff]
  unfold register.bit register.setBit register.clearBit
  by_cases hb : (r.words[i / WORDSIZE]?.getD 0).testBit (i % WORDSIZE) = true
  · simp [hb]
  · simp [hb]

/-! ## First occurrences -/

theorem mem_firstOccurrences (l : List Nat) (x : Nat) : x ∈ firstOccurrences l ↔ x ∈ l := by
  induction l with
  | nil => simp [firstOccurrences]
  | cons a l ih =>
    simp only [firstOccurrences, List.mem_cons, List.mem_filter, ih, decide_eq_true_eq]
    by_cases h : x = a
    · simp [h]
    · simp [h]

theorem nodup_firstOccurrences (l : List Nat) : (firstOccurrences l).Nodup := by
  induction l with
  | nil => simp [firstOccurrences]
  | cons a l ih =>
    simp only [firstOccurrences, List.nodup_cons, List.mem_filter, decide_eq_true_eq]
    exact ⟨fun h => h.2 rfl, ih.filter _⟩

theorem firstOccurrences_of_nodup {l : List Nat} (h : l.Nodup) : firstOccurrences l = l := by
  induction l with
  | nil => rfl
  | cons a l ih =>
    rw [List.nodup_cons] at h
    rw [firstOccurrences, ih h.2, List.filter_eq_self.mpr]
    intro y hy
    simp only [decide_eq_true_eq]
    exact fun e => h.1 (e ▸ hy)

/-! ## What the close and open loops compute -/

theorem registerCloseLoop_spec (batch : List Nat) :
    ∀ (r : register) (out : List Nat), r.WF → (∀ i ∈ batch, i < MAXREG) →
      ∃ r1 : register,
        registerCloseLoop r out batch
            = .ok (r1, out ++ (firstOccurrences batch).filter (fun i => !r.bit i)) ∧
          r1.WF ∧ ∀ j, r1.bit j = (r.bit j || decide (j ∈ batch)) := by
  induction batch with
  | nil =>
    intro r out hr _
    exact ⟨r, by simp [registerCloseLoop, firstOccurrences], hr, by simp⟩
  | cons i rest ih =>
    intro r out hr hb
    have hi : i < MAXREG := hb i (List.mem_cons_self _ _)
    obtain ⟨r1, h1, hwf, hbit⟩ := ih (r.setBit i) (if r.bit i then out else out ++ [i])
      (register.setBit_WF hr i) (fun k hk => hb k (List.mem_cons_of_mem _ hk))
    refine ⟨r1, ?_, hwf, ?_⟩
    · rw [registerCloseLoop_cons hr hi, h1]
      have hf : (firstOccurrences rest).filter (fun k => !(r.setBit i).bit k)
          = ((firstOccurrences rest).filter (fun y => decide (y ≠ i))).filter
              (fun k => !r.bit k) := by
        rw [List.filter_filter]
        apply List.filter_congr
        intro k _
        rw [register.bit_setBit hr hi]
        by_cases hk : k = i <;> simp [hk]
      rw [hf]
      by_cases hbi : r.bit i = true
      · simp [firstOccurrences, hbi]
      · simp [firstOccurrences, hbi]
    · intro j
      rw [hbit j, register.bit_setBit hr hi]
      by_cases hj : j = i
      · simp [hj]
      · simp [hj]

theorem registerOpenLoop_spec (batch : List Nat) :
    ∀ (r : register) (out : List Nat), r.WF → (∀ i ∈ batch, i < MAXREG) →
      ∃ r1 : register,
        registerOpenLoop r out batch
            = .ok (r1, out ++ (firstOccurrences batch).filter (fun i => r.bit i)) ∧
          r1.WF ∧ ∀ j, r1.bit j = (r.bit j && !decide (j ∈ batch)) := by
  induction batch with
  | nil =>
    intro r out hr _
    exact ⟨r, by simp [registerOpenLoop, firstOccurrences], hr, by simp⟩
  | cons i rest ih =>
    intro r out hr hb
    have hi : i < MAXREG := hb i (List.mem_cons_self _ _)
    obtain ⟨r1, h1, hwf, hbit⟩ := ih (r.clearBit i) (if r.bit i then out ++ [i] else out)
      (register.clearBit_WF hr i) (fun k hk => hb k (List.mem_cons_of_mem _ hk))
    refine ⟨r1, ?_, hwf, ?_⟩
    · rw [registerOpenLoop_cons hr hi, h1]
      have hf : (firstOccurrences rest).filter (fun k => (r.clearBit i).bit k)
          = ((firstOccurrences rest).filter (fun y => decide (y ≠ i))).filter
              (fun k => r.bit k) := by
        rw [List.filter_filter]
        apply List.filter_congr
        intro k _
        rw [register.bit_clearBit hr hi]
        by_cases hk : k = i <;> simp [hk]
      rw [hf]
      by_cases hbi : r.bit i = true
      · simp [firstOccurrences, hbi]
      · simp [firstOccurrences, hbi]
    · intro j
      rw [hbit j, register.bit_clearBit hr hi]
      by_cases hj : j = i
      · simp [hj]
      · simp [hj]

/-! ## The two initial registers -/

theorem registerWithAllClosed_words :
    registerWithAllClosed = ⟨List.replicate CAP MaxUint64⟩ := by decide

theorem zero_bit (j : Nat) : register.zero.bit j = false := by
  unfold register.bit register.zero
  rw [List.getD_eq_getElem?_getD, List.getElem?_replicate]
  split <;> simp

theorem registerWithAllClosed_bit {j : Nat} (hj : j < MAXREG) :
    registerWithAllClosed.bit j = true := by
  rw [registerWithAllClosed_words]
  unfold register.bit
  rw [List.getD_eq_getElem?_getD, List.getElem?_replicate, if_pos (div_lt_CAP hj)]
  simp only [Option.getD_some, MaxUint64, Nat.testBit_two_pow_sub_one]
  exact decide_eq_true (mod_lt_64 j)

theorem zero_WF : register.zero.WF := by decide

theorem registerWithAllClosed_WF : registerWithAllClosed.WF := by decide

/-! ## Results about close and open -/

/-- C1. Closing a batch of valid indices returns a register in which a condition is
closed exactly when it was closed before or occurs in the batch; from the all-open
register, the closed conditions are exactly those of the batch. -/
theorem registerClose_closed_iff (r : register) (batch : List Nat) (hr : r.WF)
    (hb : ∀ i ∈ batch, i < MAXREG) :
    (∃ r1 out, registerClose r batch = .ok (r1, out) ∧ r1.WF ∧
        ∀ j, j < MAXREG →
          (registerClosed r1 j = .ok true ↔ registerClosed r j = .ok true ∨ j ∈ batch)) ∧
      (∃ r0 out0, registerClose register.zero batch = .ok (r0, out0) ∧
        ∀ j, j < MAXREG → (registerClosed r0 j = .ok true ↔ j ∈ batch)) := by
  constructor
  · obtain ⟨r1, h1, hwf, hbit⟩ := registerCloseLoop_spec batch r [] hr hb
    refine ⟨r1, _, h1, hwf, ?_⟩
    intro j hj
    rw [registerClosed_eq hwf hj, registerClosed_eq hr hj, hbit j]
    simp
  · obtain ⟨r0, h0, hwf, hbit⟩ := registerCloseLoop_spec batch register.zero [] zero_WF hb
    refine ⟨r0, _, h0, ?_⟩
    intro j hj
    rw [registerClosed_eq hwf hj, hbit j, zero_bit]
    simp

/-- C2. Opening a batch of valid indices returns a register in which a condition is
closed exactly when it was closed before and does not occur in the batch; from the
all-closed register, the open conditions are exactly those of the batch. -/
theorem registerOpen_closed_iff (r : register) (batch : List Nat) (hr : r.WF)
    (hb : ∀ i ∈ batch, i < MAXREG) :
    (∃ r1 out, registerOpen r batch = .ok (r1, out) ∧ r1.WF ∧
        ∀ j, j < MAXREG →
          (registerClosed r1 j = .ok true ↔ registerClosed r j = .ok true ∧ j ∉ batch)) ∧
      (∃ r0 out0, registerOpen registerWithAllClosed batch = .ok (r0, out0) ∧
        ∀ j, j < MAXREG → (registerOpened r0 j = .ok true ↔ j ∈ batch)) := by
  constructor
  · obtain ⟨r1, h1, hwf, hbit⟩ := registerOpenLoop_spec batch r [] hr hb
    refine ⟨r1, _, h1, hwf, ?_⟩
    intro j hj
    rw [registerClosed_eq hwf hj, registerClosed_eq hr hj, hbit j]
    simp
  · obtain ⟨r0, h0, hwf, hbit⟩ :=
      registerOpenLoop_spec batch registerWithAllClosed [] registerWithAllClosed_WF hb
    refine ⟨r0, _, h0, ?_⟩
    intro j hj
    rw [registerOpened_eq hwf hj, hbit j, registerWithAllClosed_bit hj]
    simp

/-- C3. The changed list of a close is the batch indices that are open in the register
given, each once, in the order of their first occurrence in the batch. -/
theorem registerClose_changed (r : register) (batch : List Nat) (hr : r.WF)
    (hb : ∀ i ∈ batch, i < MAXREG) :
    ∃ r1 out, registerClose r batch = .ok (r1, out) ∧
      out = (firstOccurrences batch).filter
        (fun i => decide (registerOpened r i = .ok true)) ∧
      out.Nodup ∧
      (∀ j, j ∈ out ↔ j ∈ batch ∧ registerOpened r j = .ok true) ∧
      (∀ j, j ∈ out → registerClosed r j = .ok false) := by
  obtain ⟨r1, h1, _, _⟩ := registerCloseLoop_spec batch r [] hr hb
  have hf : (firstOccurrences batch).filter (fun i => !r.bit i)
      = (firstOccurrences batch).filter
          (fun i => decide (registerOpened r i = .ok true)) := by
    apply List.filter_congr
    intro k hk
    rw [registerOpened_eq hr (hb k ((mem_firstOccurrences batch k).mp hk))]
    cases r.bit k <;> decide
  rw [List.nil_append, hf] at h1
  refine ⟨r1, _, h1, rfl, (nodup_firstOccurrences batch).filter _, ?_, ?_⟩
  · intro j
    simp only [List.mem_filter, mem_firstOccurrences, decide_eq_true_eq]
  · intro j hj
    simp only [List.mem_filter, mem_firstOccurrences, decide_eq_true_eq] at hj
    have hjv := hb j hj.1
    have ho := hj.2
    rw [registerOpened_eq hr hjv] at ho
    rw [registerClosed_eq hr hjv]
    revert ho
    cases r.bit j <;> simp

/-- C4. The changed list of an open is the batch indices that are closed in the register
given, each once, in the order of their first occurrence in the batch. -/
theorem registerOpen_changed (r : register) (batch : List Nat) (hr : r.WF)
    (hb : ∀ i ∈ batch, i < MAXREG) :
    ∃ r1 out, registerOpen r batch = .ok (r1, out) ∧
      out = (firstOccurrences batch).filter
        (fun i => decide (registerClosed r i = .ok true)) ∧
      out.Nodup ∧
      (∀ j, j ∈ out ↔ j ∈ batch ∧ registerClosed r j = .ok true) ∧
      (∀ j, j ∈ out → registerOpened r j = .ok false) := by
  obtain ⟨r1, h1, _, _⟩ := registerOpenLoop_spec batch r [] hr hb
  have hf : (firstOccurrences batch).filter (fun i => r.bit i)
      = (firstOccurrences batch).filter
          (fun i => decide (registerClosed r i = .ok true)) := by
    apply List.filter_congr
    intro k hk
    rw [registerClosed_eq hr (hb k ((mem_firstOccurrences batch k).mp hk))]
    cases r.bit k <;> decide
  rw [List.nil_append, hf] at h1
  refine ⟨r1, _, h1, rfl, (nodup_firstOccurrences batch).filter _, ?_, ?_⟩
  · intro j
    simp only [List.mem_filter, mem_firstOccurrences, decide_eq_true_eq]
  · intro j hj
    simp only [List.mem_filter, mem_firstOccurrences, decide_eq_true_eq] at hj
    have hjv := hb j hj.1
    have hc := hj.2
    rw [registerClosed_eq hr hjv] at hc
    rw [registerOpened_eq hr hjv]
    revert hc
    cases r.bit j <;> simp

/-- Closing `2,1,2,3,2,3,7,1,4,2,9,8,2,2,3,1` on the empty register leaves exactly
`1,2,3,4,7,8,9` closed. -/
theorem registerClose_closed_iff_witness :
    register.zero.WF ∧
      (∀ i ∈ [2, 1, 2, 3, 2, 3, 7, 1, 4, 2, 9, 8, 2, 2, 3, 1], i < MAXREG) ∧
      ∃ r0 out0,
        registerClose register.zero [2, 1, 2, 3, 2, 3, 7, 1, 4, 2, 9, 8, 2, 2, 3, 1]
            = .ok (r0, out0) ∧
          r0 = ⟨926 :: List.replicate 63 0⟩ ∧
          ∀ j, j < MAXREG →
            (registerClosed r0 j = .ok true ↔ j ∈ [1, 2, 3, 4, 7, 8, 9]) := by
  refine ⟨by decide, by decide, ?_⟩
  obtain ⟨r0, out0, h0, hj⟩ := (registerClose_closed_iff register.zero
    [2, 1, 2, 3, 2, 3, 7, 1, 4, 2, 9, 8, 2, 2, 3, 1] zero_WF (by decide)).2
  refine ⟨r0, out0, h0, ?_, ?_⟩
  · have e : registerClose register.zero [2, 1, 2, 3, 2, 3, 7, 1, 4, 2, 9, 8, 2, 2, 3, 1]
        = .ok (⟨926 :: List.replicate 63 0⟩, [2, 1, 3, 7, 4, 9, 8]) := by decide
    rw [e] at h0
    injection h0 with h0
    injection h0 with h0 _
    exact h0.symm
  · intro j hjv
    rw [hj j hjv]
    simp only [List.mem_cons, List.mem_singleton, List.not_mem_nil, or_false]
    omega

/-- Opening `2,1,2,3,2,3,7,1,4,2,9,8,2,2,3,1` on the all-closed register opens exactly
`1,2,3,4,7,8,9`. -/
theorem registerOpen_closed_iff_witness :
    registerWithAllClosed.WF ∧
      (∀ i ∈ [2, 1, 2, 3, 2, 3, 7, 1, 4, 2, 9, 8, 2, 2, 3, 1], i < MAXREG) ∧
      ∃ r0 out0,
        registerOpen registerWithAllClosed [2, 1, 2, 3, 2, 3, 7, 1, 4, 2, 9, 8, 2, 2, 3, 1]
            = .ok (r0, out0) ∧
          r0 = ⟨(MaxUint64 - 926) :: List.replicate 63 MaxUint64⟩ ∧
          ∀ j, j < MAXREG →
            (registerOpened r0 j = .ok true ↔ j ∈ [1, 2, 3, 4, 7, 8, 9]) := by
  refine ⟨by decide, by decide, ?_⟩
  obtain ⟨r0, out0, h0, hj⟩ := (registerOpen_closed_iff registerWithAllClosed
    [2, 1, 2, 3, 2, 3, 7, 1, 4, 2, 9, 8, 2, 2, 3, 1] registerWithAllClosed_WF (by decide)).2
  refine ⟨r0, out0, h0, ?_, ?_⟩
  · have e : registerOpen registerWithAllClosed
          [2, 1, 2, 3, 2, 3, 7, 1, 4, 2, 9, 8, 2, 2, 3, 1]
        = .ok (⟨(MaxUint64 - 926) :: List.replicate 63 MaxUint64⟩,
            [2, 1, 3, 7, 4, 9, 8]) := by decide
    rw [e] at h0
    injection h0 with h0
    injection h0 with h0 _
    exact h0.symm
  · intro j hjv
    rw [hj j hjv]
    simp only [List.mem_cons, List.mem_singleton, List.not_mem_nil, or_false]
    omega

/-- On a register with only condition `3` closed, closing
`2,1,2,3,2,3,7,1,4,2,9,8,2,2,3,1` reports `2,1,7,4,9,8`. -/
theorem registerClose_changed_witness :
    (⟨8 :: List.replicate 63 0⟩ : register).WF ∧
      (∀ i ∈ [2, 1, 2, 3, 2, 3, 7, 1, 4, 2, 9, 8, 2, 2, 3, 1], i < MAXREG) ∧
      ∃ r1, registerClose ⟨8 :: List.replicate 63 0⟩
          [2, 1, 2, 3, 2, 3, 7, 1, 4, 2, 9, 8, 2, 2, 3, 1] = .ok (r1, [2, 1, 7, 4, 9, 8]) := by
  refine ⟨by decide, by decide, ?_⟩
  obtain ⟨r1, out, h1, hout, _⟩ := registerClose_changed ⟨8 :: List.replicate 63 0⟩
    [2, 1, 2, 3, 2, 3, 7, 1, 4, 2, 9, 8, 2, 2, 3, 1] (by decide) (by decide)
  have e : (firstOccurrences [2, 1, 2, 3, 2, 3, 7, 1, 4, 2, 9, 8, 2, 2, 3, 1]).filter
      (fun i => decide (registerOpened ⟨8 :: List.replicate 63 0⟩ i = .ok true))
      = [2, 1, 7, 4, 9, 8] := by decide
  rw [e] at hout
  rw [hout] at h1
  exact ⟨r1, h1⟩

/-- On a register with only conditions `1,2,3,4` closed, opening
`2,1,2,3,2,3,7,1,4,2,9,8,2,2,3,1` reports `2,1,3,4`. -/
theorem registerOpen_changed_witness :
    (⟨30 :: List.replicate 63 0⟩ : register).WF ∧
      (∀ i ∈ [2, 1, 2, 3, 2, 3, 7, 1, 4, 2, 9, 8, 2, 2, 3, 1], i < MAXREG) ∧
      ∃ r1, registerOpen ⟨30 :: List.replicate 63 0⟩
          [2, 1, 2, 3, 2, 3, 7, 1, 4, 2, 9, 8, 2, 2, 3, 1] = .ok (r1, [2, 1, 3, 4]) := by
  refine ⟨by decide, by decide, ?_⟩
  obtain ⟨r1, out, h1, hout, _⟩ := registerOpen_changed ⟨30 :: List.replicate 63 0⟩
    [2, 1, 2, 3, 2, 3, 7, 1, 4, 2, 9, 8, 2, 2, 3, 1] (by decide) (by decide)
  have e : (firstOccurrences [2, 1, 2, 3, 2, 3, 7, 1, 4, 2, 9, 8, 2, 2, 3, 1]).filter
      (fun i => decide (registerClosed ⟨30 :: List.replicate 63 0⟩ i = .ok true))
      = [2, 1, 3, 4] := by decide
  rw [e] at hout
  rw [hout] at h1
  exact ⟨r1, h1⟩

/-! ## What the toggle loop computes -/

theorem register.flipBit_WF {r : register} (hr : r.WF) (i : Nat) : (r.flipBit i).WF := by
  unfold register.flipBit
  split
  · exact register.clearBit_WF hr i
  · exact register.setBit_WF hr i

theorem register.bit_flipBit {r : register} (hr : r.WF) {i : Nat} (hi : i < MAXREG) (j : Nat) :
    (r.flipBit i).bit j = (r.bit j ^^ decide (j = i)) := by
  unfold register.flipBit
  by_cases hb : r.bit i = true
  · rw [if_pos hb, register.bit_clearBit hr hi]
    by_cases hj : j = i
    · subst hj
      simp [hb]
    · simp [hj]
  · rw [if_neg hb, register.bit_setBit hr hi]
    by_cases hj : j = i
    · subst hj
      simp [hb]
    · simp [hj]

theorem registerToggleLoop_step {r : register} (hr : r.WF) {i : Nat} (hi : i < MAXREG)
    (closed opened rest : List Nat) :
    registerToggleLoop r closed opened (i :: rest)
      = registerToggleLoop (r.flipBit i) (if r.bit i then closed else closed ++ [i])
          (if r.bit i then opened ++ [i] else opened) rest := by
  rw [registerToggleLoop_cons hr hi]
  unfold register.flipBit
  by_cases hb : r.bit i = true
  · simp [hb]
  · simp [hb]

theorem registerToggleLoop_spec (batch : List Nat) :
    ∀ (r : register) (closed opened : List Nat), r.WF → (∀ i ∈ batch, i < MAXREG) →
      ∃ (r1 : register) (c1 o1 : List Nat),
        registerToggleLoop r closed opened batch = .ok (r1, c1, o1) ∧ r1.WF ∧
          ∀ j, r1.bit j = (r.bit j ^^ decide (batch.count j % 2 = 1)) := by
  induction batch with
  | nil =>
    intro r closed opened hr _
    exact ⟨r, closed, opened, by simp [registerToggleLoop], hr, by simp⟩
  | cons i rest ih =>
    intro r closed opened hr hb
    have hi : i < MAXREG := hb i (List.mem_cons_self _ _)
    obtain ⟨r1, c1, o1, h1, hwf, hbit⟩ := ih (r.flipBit i)
      (if r.bit i then closed else closed ++ [i]) (if r.bit i then opened ++ [i] else opened)
      (register.flipBit_WF hr i) (fun k hk => hb k (List.mem_cons_of_mem _ hk))
    refine ⟨r1, c1, o1, ?_, hwf, ?_⟩
    · rw [registerToggleLoop_step hr hi, h1]
    · intro j
      rw [hbit j, register.bit_flipBit hr hi, List.count_cons]
      by_cases hj : j = i
      · subst hj
        rcases Nat.mod_two_eq_zero_or_one (List.count j rest) with h | h
        · have h2 : (List.count j rest + 1) % 2 = 1 := by omega
          simp [h, h2]
        · have h2 : (List.count j rest + 1) % 2 = 0 := by omega
          simp [h, h2]
      · have hji : ¬ i = j := fun e => hj e.symm
        simp [hj, hji]

theorem registerToggleLoop_nodup (batch : List Nat) :
    ∀ (r : register) (closed opened : List Nat), r.WF → (∀ i ∈ batch, i < MAXREG) →
      batch.Nodup →
      ∃ r1 : register,
        registerToggleLoop r closed opened batch
            = .ok (r1, closed ++ batch.filter (fun i => !r.bit i),
                opened ++ batch.filter (fun i => r.bit i)) ∧
          r1.WF ∧ ∀ j, r1.bit j = (r.bit j ^^ decide (j ∈ batch)) := by
  induction batch with
  | nil =>
    intro r closed opened hr _ _
    exact ⟨r, by simp [registerToggleLoop], hr, by simp⟩
  | cons i rest ih =>
    intro r closed opened hr hb hnd
    have hi : i < MAXREG := hb i (List.mem_cons_self _ _)
    rw [List.nodup_cons] at hnd
    obtain ⟨r1, h1, hwf, hbit⟩ := ih (r.flipBit i)
      (if r.bit i then closed else closed ++ [i]) (if r.bit i then opened ++ [i] else opened)
      (register.flipBit_WF hr i) (fun k hk => hb k (List.mem_cons_of_mem _ hk)) hnd.2
    have hsame : ∀ k ∈ rest, (r.flipBit i).bit k = r.bit k := by
      intro k hk
      rw [register.bit_flipBit hr hi]
      have : ¬ k = i := fun e => hnd.1 (e ▸ hk)
      simp [this]
    have hf1 : rest.filter (fun k => !(r.flipBit i).bit k) = rest.filter (fun k => !r.bit k) :=
      List.filter_congr (fun k hk => by rw [hsame k hk])
    have hf2 : rest.filter (fun k => (r.flipBit i).bit k) = rest.filter (fun k => r.bit k) :=
      List.filter_congr (fun k hk => hsame k hk)
    refine ⟨r1, ?_, hwf, ?_⟩
    · rw [registerToggleLoop_step hr hi, h1, hf1, hf2]
      by_cases hbi : r.bit i = true
      · simp [hbi]
      · simp [hbi]
    · intro j
      rw [hbit j, register.bit_flipBit hr hi]
      by_cases hj : j = i
      · subst hj
        simp [hnd.1]
      · simp [hj]

/-! ## Results about toggle -/

/-- C5. Toggling a duplicate-free batch of valid indices reports as closed the batch
indices that were open and as opened the batch indices that were closed, each list in
batch order. -/
theorem registerToggle_nodup_lists (r : register) (batch : List Nat) (hr : r.WF)
    (hb : ∀ i ∈ batch, i < MAXREG) (hnd : batch.Nodup) :
    ∃ r1, registerToggle r batch
      = .ok (r1, batch.filter (fun i => decide (registerOpened r i = .ok true)),
          batch.filter (fun i => decide (registerClosed r i = .ok true))) := by
  obtain ⟨r1, h1, _, _⟩ := registerToggleLoop_nodup batch r [] [] hr hb hnd
  have hf1 : batch.filter (fun i => !r.bit i)
      = batch.filter (fun i => decide (registerOpened r i = .ok true)) := by
    apply List.filter_congr
    intro k hk
    rw [registerOpened_eq hr (hb k hk)]
    cases r.bit k <;> decide
  have hf2 : batch.filter (fun i => r.bit i)
      = batch.filter (fun i => decide (registerClosed r i = .ok true)) := by
    apply List.filter_congr
    intro k hk
    rw [registerClosed_eq hr (hb k hk)]
    cases r.bit k <;> decide
  rw [List.nil_append, List.nil_append, hf1, hf2] at h1
  exact ⟨r1, h1⟩

/-- From the register with exactly `2,3,4,5,11,12,13,14,19,20` closed, toggling `1..20`
reports `1,6,7,8,9,10,15,16,17,18` closed and `2,3,4,5,11,12,13,14,19,20` opened. -/
theorem registerToggle_nodup_lists_witness :
    registerClose register.zero [2, 3, 4, 5, 11, 12, 13, 14, 19, 20]
        = .ok (⟨1603644 :: List.replicate 63 0⟩, [2, 3, 4, 5, 11, 12, 13, 14, 19, 20]) ∧
      (⟨1603644 :: List.replicate 63 0⟩ : register).WF ∧
      (∀ i ∈ List.range' 1 20, i < MAXREG) ∧ (List.range' 1 20).Nodup ∧
      ∃ r1, registerToggle ⟨1603644 :: List.replicate 63 0⟩ (List.range' 1 20)
        = .ok (r1, [1, 6, 7, 8, 9, 10, 15, 16, 17, 18],
            [2, 3, 4, 5, 11, 12, 13, 14, 19, 20]) := by
  refine ⟨by decide, by decide, by decide, by decide, ?_⟩
  obtain ⟨r1, h1⟩ := registerToggle_nodup_lists ⟨1603644 :: List.replicate 63 0⟩
    (List.range' 1 20) (by decide) (by decide) (by decide)
  have e1 : (List.range' 1 20).filter
      (fun i => decide (registerOpened ⟨1603644 :: List.replicate 63 0⟩ i = .ok true))
      = [1, 6, 7, 8, 9, 10, 15, 16, 17, 18] := by decide
  have e2 : (List.range' 1 20).filter
      (fun i => decide (registerClosed ⟨1603644 :: List.replicate 63 0⟩ i = .ok true))
      = [2, 3, 4, 5, 11, 12, 13, 14, 19, 20] := by decide
  rw [e1, e2] at h1
  exact ⟨r1, h1⟩

/-- C6. Toggling a batch of valid indices changes exactly the conditions that occur an odd
number of times in the batch; toggling `A` and then `B` gives the register of toggling
`A ++ B`. -/
theorem registerToggle_parity (r : register) (A B : List Nat) (hr : r.WF)
    (hA : ∀ i ∈ A, i < MAXREG) (hB : ∀ i ∈ B, i < MAXREG) :
    (∃ r1 c o, registerToggle r A = .ok (r1, c, o) ∧ r1.WF ∧
        ∀ j, j < MAXREG → (registerClosed r1 j ≠ registerClosed r j ↔ A.count j % 2 = 1)) ∧
      (∃ rA cA oA rB cB oB c o, registerToggle r A = .ok (rA, cA, oA) ∧
        registerToggle rA B = .ok (rB, cB, oB) ∧
        registerToggle r (A ++ B) = .ok (rB, c, o)) := by
  obtain ⟨rA, cA, oA, hA1, hAwf, hAbit⟩ := registerToggleLoop_spec A r [] [] hr hA
  obtain ⟨rB, cB, oB, hB1, hBwf, hBbit⟩ := registerToggleLoop_spec B rA [] [] hAwf hB
  have hAB : ∀ i ∈ A ++ B, i < MAXREG := by
    intro i hi
    rcases List.mem_append.mp hi with h | h
    · exact hA i h
    · exact hB i h
  obtain ⟨rC, c, o, hC1, hCwf, hCbit⟩ := registerToggleLoop_spec (A ++ B) r [] [] hr hAB
  constructor
  · refine ⟨rA, cA, oA, hA1, hAwf, ?_⟩
    intro j hj
    rw [registerClosed_eq hAwf hj, registerClosed_eq hr hj, hAbit j]
    rcases Nat.mod_two_eq_zero_or_one (List.count j A) with h | h
    · simp [h]
    · simp [h]
  · have hrr : rC = rB := by
      apply register.ext_bit hCwf hBwf
      intro j _
      rw [hCbit j, hBbit j, hAbit j, List.count_append, Bool.xor_assoc]
      congr 1
      rcases Nat.mod_two_eq_zero_or_one (List.count j A) with h | h <;>
        rcases Nat.mod_two_eq_zero_or_one (List.count j B) with h2 | h2 <;>
        simp [h, h2, Nat.add_mod]
    rw [hrr] at hC1
    exact ⟨rA, cA, oA, rB, cB, oB, c, o, hA1, hB1, hC1⟩

/-- From the empty register, toggling `0..7` and then `5..9` leaves exactly
`0,1,2,3,4,8,9` closed. -/
theorem registerToggle_parity_witness :
    register.zero.WF ∧ (∀ i ∈ List.range' 0 8, i < MAXREG) ∧
      (∀ i ∈ List.range' 5 5, i < MAXREG) ∧
      ∃ rA cA oA cB oB c o, registerToggle register.zero (List.range' 0 8) = .ok (rA, cA, oA) ∧
        registerToggle rA (List.range' 5 5) = .ok (⟨799 :: List.replicate 63 0⟩, cB, oB) ∧
        registerToggle register.zero (List.range' 0 8 ++ List.range' 5 5)
          = .ok (⟨799 :: List.replicate 63 0⟩, c, o) ∧
        registerClose register.zero [0, 1, 2, 3, 4, 8, 9]
          = .ok (⟨799 :: List.replicate 63 0⟩, [0, 1, 2, 3, 4, 8, 9]) := by
  refine ⟨by decide, by decide, by decide, ?_⟩
  obtain ⟨rA, cA, oA, rB, cB, oB, c, o, hA, hB, hC⟩ :=
    (registerToggle_parity register.zero (List.range' 0 8) (List.range' 5 5)
      zero_WF (by decide) (by decide)).2
  have e : registerToggle register.zero (List.range' 0 8 ++ List.range' 5 5)
      = .ok (⟨799 :: List.replicate 63 0⟩, [0, 1, 2, 3, 4, 5, 6, 7, 8, 9], [5, 6, 7]) := by
    decide
  have hrB : rB = ⟨799 :: List.replicate 63 0⟩ := by
    rw [e] at hC
    injection hC with hC
    injection hC with hC _
    exact hC.symm
  rw [hrB] at hB hC
  exact ⟨rA, cA, oA, cB, oB, c, o, hA, hB, hC, by decide⟩

/-- C9. Toggling a duplicate-free batch of valid indices twice in succession returns the
original register; the second call reports the two lists of the first one, exchanged. -/
theorem registerToggle_twice_nodup (r : register) (batch : List Nat) (hr : r.WF)
    (hb : ∀ i ∈ batch, i < MAXREG) (hnd : batch.Nodup) :
    ∃ r1 c o, registerToggle r batch = .ok (r1, c, o) ∧
      registerToggle r1 batch = .ok (r, o, c) := by
  obtain ⟨r1, h1, hwf1, hbit1⟩ := registerToggleLoop_nodup batch r [] [] hr hb hnd
  obtain ⟨r2, h2, hwf2, hbit2⟩ := registerToggleLoop_nodup batch r1 [] [] hwf1 hb hnd
  have hr2 : r2 = r := by
    apply register.ext_bit hwf2 hr
    intro j _
    rw [hbit2 j, hbit1 j, Bool.xor_assoc]
    simp
  have hf1 : batch.filter (fun i => !r1.bit i) = batch.filter (fun i => r.bit i) := by
    apply List.filter_congr
    intro k hk
    rw [hbit1 k]
    simp [hk]
  have hf2 : batch.filter (fun i => r1.bit i) = batch.filter (fun i => !r.bit i) := by
    apply List.filter_congr
    intro k hk
    rw [hbit1 k]
    simp [hk]
  rw [hr2, hf1, hf2] at h2
  exact ⟨r1, _, _, h1, h2⟩

/-- Toggling `1..20` twice on the register with `2,3,4,5,11,12,13,14,19,20` closed. -/
theorem registerToggle_twice_nodup_witness :
    (⟨1603644 :: List.replicate 63 0⟩ : register).WF ∧
      (∀ i ∈ List.range' 1 20, i < MAXREG) ∧ (List.range' 1 20).Nodup ∧
      ∃ r1 c o,
        registerToggle ⟨1603644 :: List.replicate 63 0⟩ (List.range' 1 20) = .ok (r1, c, o) ∧
          registerToggle r1 (List.range' 1 20)
            = .ok (⟨1603644 :: List.replicate 63 0⟩, o, c) :=
  ⟨by decide, by decide, by decide,
    registerToggle_twice_nodup ⟨1603644 :: List.replicate 63 0⟩ (List.range' 1 20)
      (by decide) (by decide) (by decide)⟩

/-! ## Round trip and idempotence -/

/-- C7. Closing an open condition and then opening it gives back the register, and
opening a closed condition and then closing it gives back the register; each of the
two calls reports the index. -/
theorem close_open_roundtrip (r : register) (hr : r.WF) :
    (∀ i, i < MAXREG → registerOpened r i = .ok true →
        ∃ r1, registerClose r [i] = .ok (r1, [i]) ∧ registerOpen r1 [i] = .ok (r, [i])) ∧
      (∀ i, i < MAXREG → registerClosed r i = .ok true →
        ∃ r1, registerOpen r [i] = .ok (r1, [i]) ∧ registerClose r1 [i] = .ok (r, [i])) := by
  constructor
  · intro i hi ho
    have hv : ∀ k ∈ [i], k < MAXREG := by
      intro k hk
      rw [List.mem_singleton] at hk
      rw [hk]
      exact hi
    rw [registerOpened_eq hr hi] at ho
    have hbi : r.bit i = false := by
      revert ho
      cases r.bit i <;> simp
    obtain ⟨r1, h1, hwf1, hbit1⟩ := registerCloseLoop_spec [i] r [] hr hv
    obtain ⟨r2, h2, hwf2, hbit2⟩ := registerOpenLoop_spec [i] r1 [] hwf1 hv
    have hr2 : r2 = r := by
      apply register.ext_bit hwf2 hr
      intro j _
      rw [hbit2 j, hbit1 j]
      by_cases hj : j = i
      · subst hj
        simp [hbi]
      · simp [hj]
    have hb1 : r1.bit i = true := by
      rw [hbit1 i]
      simp
    rw [hr2] at h2
    simp only [firstOccurrences, List.filter_nil, List.filter_cons, hbi, hb1, List.nil_append,
      Bool.not_false, if_true] at h1 h2
    exact ⟨r1, h1, h2⟩
  · intro i hi hc
    have hv : ∀ k ∈ [i], k < MAXREG := by
      intro k hk
      rw [List.mem_singleton] at hk
      rw [hk]
      exact hi
    rw [registerClosed_eq hr hi] at hc
    have hbi : r.bit i = true := by
      revert hc
      cases r.bit i <;> simp
    obtain ⟨r1, h1, hwf1, hbit1⟩ := registerOpenLoop_spec [i] r [] hr hv
    obtain ⟨r2, h2, hwf2, hbit2⟩ := registerCloseLoop_spec [i] r1 [] hwf1 hv
    have hr2 : r2 = r := by
      apply register.ext_bit hwf2 hr
      intro j _
      rw [hbit2 j, hbit1 j]
      by_cases hj : j = i
      · subst hj
        simp [hbi]
      · simp [hj]
    have hb1 : r1.bit i = false := by
      rw [hbit1 i]
      simp
    rw [hr2] at h2
    simp only [firstOccurrences, List.filter_nil, List.filter_cons, hbi, hb1, List.nil_append,
      Bool.not_false, if_true] at h1 h2
    exact ⟨r1, h1, h2⟩

/-- On the register with exactly `1,2,3,4` closed: close then open `7`, open then
close `3`. -/
theorem close_open_roundtrip_witness :
    (⟨30 :: List.replicate 63 0⟩ : register).WF ∧
      (∃ r1, registerClose ⟨30 :: List.replicate 63 0⟩ [7] = .ok (r1, [7]) ∧
        registerOpen r1 [7] = .ok (⟨30 :: List.replicate 63 0⟩, [7])) ∧
      (∃ r1, registerOpen ⟨30 :: List.replicate 63 0⟩ [3] = .ok (r1, [3]) ∧
        registerClose r1 [3] = .ok (⟨30 :: List.replicate 63 0⟩, [3])) :=
  ⟨by decide,
    (close_open_roundtrip ⟨30 :: List.replicate 63 0⟩ (by decide)).1 7 (by decide) (by decide),
    (close_open_roundtrip ⟨30 :: List.replicate 63 0⟩ (by decide)).2 3 (by decide) (by decide)⟩

theorem filter_eq_nil_of_forall {l : List Nat} {p : Nat → Bool} (h : ∀ x ∈ l, p x = false) :
    l.filter p = [] := by
  rw [List.filter_eq_nil_iff]
  intro x hx
  rw [h x hx]
  simp

/-- C8. Closing a batch of conditions that are all closed already returns the register
unchanged and an empty changed list, and so does opening a batch of conditions that are
all open; hence a close (or open) applied a second time with the same batch changes
nothing and reports nothing. -/
theorem close_open_idempotent (r : register) (batch : List Nat) (hr : r.WF)
    (hb : ∀ i ∈ batch, i < MAXREG) :
    ((∀ i ∈ batch, registerClosed r i = .ok true) → registerClose r batch = .ok (r, [])) ∧
      ((∀ i ∈ batch, registerOpened r i = .ok true) → registerOpen r batch = .ok (r, [])) ∧
      (∃ r1 out, registerClose r batch = .ok (r1, out) ∧
        registerClose r1 batch = .ok (r1, [])) ∧
      (∃ r1 out, registerOpen r batch = .ok (r1, out) ∧
        registerOpen r1 batch = .ok (r1, [])) := by
  have closeSame : ∀ s : register, s.WF → (∀ i ∈ batch, s.bit i = true) →
      registerClose s batch = .ok (s, []) := by
    intro s hs hall
    obtain ⟨s1, h1, hwf1, hbit1⟩ := registerCloseLoop_spec batch s [] hs hb
    have hs1 : s1 = s := by
      apply register.ext_bit hwf1 hs
      intro j _
      rw [hbit1 j]
      by_cases hj : j ∈ batch
      · simp [hj, hall j hj]
      · simp [hj]
    have hnil : (firstOccurrences batch).filter (fun i => !s.bit i) = [] :=
      filter_eq_nil_of_forall (fun x hx => by
        rw [hall x ((mem_firstOccurrences batch x).mp hx)]
        rfl)
    rw [hs1, hnil] at h1
    exact h1
  have openSame : ∀ s : register, s.WF → (∀ i ∈ batch, s.bit i = false) →
      registerOpen s batch = .ok (s, []) := by
    intro s hs hall
    obtain ⟨s1, h1, hwf1, hbit1⟩ := registerOpenLoop_spec batch s [] hs hb
    have hs1 : s1 = s := by
      apply register.ext_bit hwf1 hs
      intro j _
      rw [hbit1 j]
      by_cases hj : j ∈ batch
      · simp [hj, hall j hj]
      · simp [hj]
    have hnil : (firstOccurrences batch).filter (fun i => s.bit i) = [] :=
      filter_eq_nil_of_forall (fun x hx => hall x ((mem_firstOccurrences batch x).mp hx))
    rw [hs1, hnil] at h1
    exact h1
  refine ⟨?_, ?_, ?_, ?_⟩
  · intro hall
    apply closeSame r hr
    intro i hi
    have h := hall i hi
    rw [registerClosed_eq hr (hb i hi)] at h
    revert h
    cases r.bit i <;> simp
  · intro hall
    apply openSame r hr
    intro i hi
    have h := hall i hi
    rw [registerOpened_eq hr (hb i hi)] at h
    revert h
    cases r.bit i <;> simp
  · obtain ⟨r1, h1, hwf1, hbit1⟩ := registerCloseLoop_spec batch r [] hr hb
    refine ⟨r1, _, h1, closeSame r1 hwf1 ?_⟩
    intro i hi
    rw [hbit1 i]
    simp [hi]
  · obtain ⟨r1, h1, hwf1, hbit1⟩ := registerOpenLoop_spec batch r [] hr hb
    refine ⟨r1, _, h1, openSame r1 hwf1 ?_⟩
    intro i hi
    rw [hbit1 i]
    simp [hi]

/-- On the register with exactly `1,2,3,4` closed: closing `2,1,2,4` and opening
`7,9,7` change nothing and report nothing. -/
theorem close_open_idempotent_witness :
    (⟨30 :: List.replicate 63 0⟩ : register).WF ∧
      registerClose ⟨30 :: List.replicate 63 0⟩ [2, 1, 2, 4]
        = .ok (⟨30 :: List.replicate 63 0⟩, []) ∧
      registerOpen ⟨30 :: List.replicate 63 0⟩ [7, 9, 7]
        = .ok (⟨30 :: List.replicate 63 0⟩, []) :=
  ⟨by decide,
    (close_open_idempotent ⟨30 :: List.replicate 63 0⟩ [2, 1, 2, 4] (by decide)
      (by decide)).1 (by decide),
    (close_open_idempotent ⟨30 :: List.replicate 63 0⟩ [7, 9, 7] (by decide)
      (by decide)).2.1 (by decide)⟩

/-! ## Sequences of close and open calls -/

theorem Call.run_spec (c : Call) (r : register) (hr : r.WF)
    (hb : ∀ i ∈ c.batch, i < MAXREG) :
    ∃ r1, c.run r = .ok r1 ∧ r1.WF ∧
      ∀ j, r1.bit j = if j ∈ c.batch then c.isClose else r.bit j := by
  cases c with
  | doClose b =>
    obtain ⟨r1, h1, hwf, hbit⟩ := registerCloseLoop_spec b r [] hr hb
    refine ⟨r1, ?_, hwf, ?_⟩
    · simp only [Call.run, registerClose, h1]
    · intro j
      rw [hbit j]
      by_cases hj : j ∈ b <;> simp [Call.batch, Call.isClose, hj]
  | doOpen b =>
    obtain ⟨r1, h1, hwf, hbit⟩ := registerOpenLoop_spec b r [] hr hb
    refine ⟨r1, ?_, hwf, ?_⟩
    · simp only [Call.run, registerOpen, h1]
    · intro j
      rw [hbit j]
      by_cases hj : j ∈ b <;> simp [Call.batch, Call.isClose, hj]

theorem runCalls_spec (calls : List Call) :
    ∀ r : register, r.WF → (∀ c ∈ calls, ∀ i ∈ c.batch, i < MAXREG) →
      ∃ rf, runCalls r calls = .ok rf ∧ rf.WF ∧
        ∀ j, rf.bit j
          = calls.foldl (fun b c => if j ∈ c.batch then c.isClose else b) (r.bit j) := by
  induction calls with
  | nil =>
    intro r hr _
    exact ⟨r, rfl, hr, fun _ => rfl⟩
  | cons c cs ih =>
    intro r hr hb
    obtain ⟨r1, h1, hwf1, hbit1⟩ := c.run_spec r hr (hb c (List.mem_cons_self _ _))
    obtain ⟨rf, hf, hwff, hbitf⟩ := ih r1 hwf1 (fun d hd => hb d (List.mem_cons_of_mem _ hd))
    refine ⟨rf, ?_, hwff, ?_⟩
    · simp only [runCalls, h1, hf]
    · intro j
      rw [hbitf j, hbit1 j, List.foldl_cons]

theorem foldl_untouched (j : Nat) (post : List Call) (h : ∀ d ∈ post, j ∉ d.batch) (b : Bool) :
    post.foldl (fun b c => if j ∈ c.batch then c.isClose else b) b = b := by
  induction post generalizing b with
  | nil => rfl
  | cons d ds ih =>
    rw [List.foldl_cons, if_neg (h d (List.mem_cons_self _ _))]
    exact ih (fun e he => h e (List.mem_cons_of_mem _ he)) b

/-- C10. After a sequence of close and open calls over valid indices, a condition that
occurs in some batch is closed exactly when the last call whose batch contains it is a
close, and a condition that occurs in no batch keeps its initial state. -/
theorem last_call_wins (r : register) (calls : List Call) (hr : r.WF)
    (hb : ∀ c ∈ calls, ∀ i ∈ c.batch, i < MAXREG) :
    ∃ rf, runCalls r calls = .ok rf ∧ rf.WF ∧
      ∀ i, i < MAXREG →
        (∀ pre c post, calls = pre ++ c :: post → i ∈ c.batch →
            (∀ d ∈ post, i ∉ d.batch) →
            (registerClosed rf i = .ok true ↔ c.isClose = true)) ∧
          ((∀ c ∈ calls, i ∉ c.batch) → registerClosed rf i = registerClosed r i) := by
  obtain ⟨rf, hf, hwf, hbit⟩ := runCalls_spec calls r hr hb
  refine ⟨rf, hf, hwf, ?_⟩
  intro i hi
  constructor
  · intro pre c post hcalls hic hpost
    rw [registerClosed_eq hwf hi, hbit i, hcalls, List.foldl_append, List.foldl_cons,
      if_pos hic, foldl_untouched i post hpost]
    simp
  · intro hnone
    rw [registerClosed_eq hwf hi, registerClosed_eq hr hi, hbit i,
      foldl_untouched i calls hnone]

/-- Close `1,2,3`, open `2,3,4`, close `3,5` on the empty register: `1` (last touched by
the first close), `3` and `5` end closed, `2` and `4` (last touched by the open) end open,
and `6`, touched by no call, stays open. -/
theorem last_call_wins_witness :
    register.zero.WF ∧
      (∀ c ∈ [Call.doClose [1, 2, 3], Call.doOpen [2, 3, 4], Call.doClose [3, 5]],
        ∀ i ∈ c.batch, i < MAXREG) ∧
      ∃ rf, runCalls register.zero
            [Call.doClose [1, 2, 3], Call.doOpen [2, 3, 4], Call.doClose [3, 5]] = .ok rf ∧
          rf = ⟨42 :: List.replicate 63 0⟩ ∧
          registerClosed rf 1 = .ok true ∧ registerClosed rf 2 = .ok false ∧
          registerClosed rf 3 = .ok true ∧ registerClosed rf 6 = registerClosed register.zero 6 := by
  refine ⟨by decide, by decide, ?_⟩
  obtain ⟨rf, hf, _, h⟩ := last_call_wins register.zero
    [Call.doClose [1, 2, 3], Call.doOpen [2, 3, 4], Call.doClose [3, 5]] zero_WF (by decide)
  have hrf : rf = ⟨42 :: List.replicate 63 0⟩ := by
    have e : runCalls register.zero
        [Call.doClose [1, 2, 3], Call.doOpen [2, 3, 4], Call.doClose [3, 5]]
        = .ok ⟨42 :: List.replicate 63 0⟩ := by decide
    rw [e] at hf
    injection hf with hf
    exact hf.symm
  refine ⟨rf, hf, hrf, ?_, ?_, ?_, ?_⟩
  · exact ((h 1 (by decide)).1 [] (Call.doClose [1, 2, 3])
      [Call.doOpen [2, 3, 4], Call.doClose [3, 5]] rfl (by decide) (by decide)).mpr rfl
  · rw [hrf]
    decide
  · exact ((h 3 (by decide)).1 [Call.doClose [1, 2, 3], Call.doOpen [2, 3, 4]]
      (Call.doClose [3, 5]) [] rfl (by decide) (by decide)).mpr rfl
  · exact (h 6 (by decide)).2 (by decide)

/-! ## The changed list and the bits that changed -/

/-- C11. For close and for open, a valid index is in the changed list exactly when its
bit differs between the register given and the register returned; the changed list is empty
exactly when the register returned is the register given. -/
theorem changed_iff_bit_differs (r : register) (batch : List Nat) (hr : r.WF)
    (hb : ∀ i ∈ batch, i < MAXREG) :
    (∃ r1 out, registerClose r batch = .ok (r1, out) ∧
        (∀ j, j < MAXREG → (j ∈ out ↔ registerClosed r1 j ≠ registerClosed r j)) ∧
        (out = [] ↔ r1 = r)) ∧
      (∃ r1 out, registerOpen r batch = .ok (r1, out) ∧
        (∀ j, j < MAXREG → (j ∈ out ↔ registerClosed r1 j ≠ registerClosed r j)) ∧
        (out = [] ↔ r1 = r)) := by
  constructor
  · obtain ⟨r1, h1, hwf, hbit⟩ := registerCloseLoop_spec batch r [] hr hb
    rw [List.nil_append] at h1
    have hmem : ∀ j, j ∈ (firstOccurrences batch).filter (fun i => !r.bit i)
        ↔ r1.bit j ≠ r.bit j := by
      intro j
      rw [List.mem_filter, mem_firstOccurrences, hbit j]
      by_cases hj : j ∈ batch <;> cases r.bit j <;> simp [hj]
    refine ⟨r1, _, h1, ?_, ?_⟩
    · intro j hj
      rw [hmem j, registerClosed_eq hwf hj, registerClosed_eq hr hj]
      simp
    · constructor
      · intro hnil
        apply register.ext_bit hwf hr
        intro j _
        by_contra hne
        have := (hmem j).mpr hne
        rw [hnil] at this
        exact List.not_mem_nil j this
      · intro heq
        apply List.eq_nil_iff_forall_not_mem.mpr
        intro j hj
        exact (hmem j).mp hj (by rw [heq])
  · obtain ⟨r1, h1, hwf, hbit⟩ := registerOpenLoop_spec batch r [] hr hb
    rw [List.nil_append] at h1
    have hmem : ∀ j, j ∈ (firstOccurrences batch).filter (fun i => r.bit i)
        ↔ r1.bit j ≠ r.bit j := by
      intro j
      rw [List.mem_filter, mem_firstOccurrences, hbit j]
      by_cases hj : j ∈ batch <;> cases r.bit j <;> simp [hj]
    refine ⟨r1, _, h1, ?_, ?_⟩
    · intro j hj
      rw [hmem j, registerClosed_eq hwf hj, registerClosed_eq hr hj]
      simp
    · constructor
      · intro hnil
        apply register.ext_bit hwf hr
        intro j _
        by_contra hne
        have := (hmem j).mpr hne
        rw [hnil] at this
        exact List.not_mem_nil j this
      · intro heq
        apply List.eq_nil_iff_forall_not_mem.mpr
        intro j hj
        exact (hmem j).mp hj (by rw [heq])

/-- On the register with exactly `1,2,3,4` closed, closing `3,7,3,7` reports `7`, the only
bit that changes, and opening `7,9` reports nothing and returns the register given. -/
theorem changed_iff_bit_differs_witness :
    (⟨30 :: List.replicate 63 0⟩ : register).WF ∧ (∀ i ∈ [3, 7, 3, 7], i < MAXREG) ∧
      (∃ r1 out, registerClose ⟨30 :: List.replicate 63 0⟩ [3, 7, 3, 7] = .ok (r1, out) ∧
        (∀ j, j < MAXREG →
          (j ∈ out ↔ registerClosed r1 j ≠ registerClosed ⟨30 :: List.replicate 63 0⟩ j)) ∧
        (out = [] ↔ r1 = ⟨30 :: List.replicate 63 0⟩)) ∧
      registerClose ⟨30 :: List.replicate 63 0⟩ [3, 7, 3, 7]
        = .ok (⟨158 :: List.replicate 63 0⟩, [7]) ∧
      registerOpen ⟨30 :: List.replicate 63 0⟩ [7, 9]
        = .ok (⟨30 :: List.replicate 63 0⟩, []) :=
  ⟨by decide, by decide,
    (changed_iff_bit_differs ⟨30 :: List.replicate 63 0⟩ [3, 7, 3, 7] (by decide)
      (by decide)).1,
    by decide, by decide⟩

/-! ## Index validation -/

theorem offset_word_of_ge {r : register} (hr : r.WF) {i : Nat} (hi : MAXREG ≤ i) :
    offset i = .error .overflow ∨
      (offset i = .ok (CAP, 0) ∧ r.word CAP = .error .indexOutOfRange) := by
  by_cases h : i > MAXREG
  · left
    unfold offset
    rw [if_pos h]
  · right
    have hi2 : i = MAXREG := by omega
    constructor
    · rw [hi2]
      decide
    · unfold register.word
      rw [List.getElem?_eq_none (by rw [hr.1])]

theorem registerClosed_of_ge {r : register} (hr : r.WF) {i : Nat} (hi : MAXREG ≤ i) :
    ∃ e, registerClosed r i = .error e := by
  unfold registerClosed
  rcases offset_word_of_ge hr hi with h | ⟨h1, h2⟩
  · exact ⟨_, by rw [h]⟩
  · exact ⟨.indexOutOfRange, by simp only [h1, h2]⟩

theorem registerOpened_of_ge {r : register} (hr : r.WF) {i : Nat} (hi : MAXREG ≤ i) :
    ∃ e, registerOpened r i = .error e := by
  unfold registerOpened
  rcases offset_word_of_ge hr hi with h | ⟨h1, h2⟩
  · exact ⟨_, by rw [h]⟩
  · exact ⟨.indexOutOfRange, by simp only [h1, h2]⟩

theorem registerCloseLoop_of_ge (batch : List Nat) :
    ∀ (r : register) (out : List Nat), r.WF → (∃ i ∈ batch, MAXREG ≤ i) →
      ∃ e, registerCloseLoop r out batch = .error e := by
  induction batch with
  | nil =>
    intro r out _ h
    obtain ⟨i, hi, _⟩ := h
    exact absurd hi (List.not_mem_nil i)
  | cons a rest ih =>
    intro r out hr h
    by_cases ha : a < MAXREG
    · rw [registerCloseLoop_cons hr ha]
      apply ih _ _ (register.setBit_WF hr a)
      obtain ⟨i, hi, hge⟩ := h
      rcases List.mem_cons.mp hi with e | e
      · omega
      · exact ⟨i, e, hge⟩
    · rw [registerCloseLoop]
      rcases offset_word_of_ge hr (Nat.le_of_not_lt ha) with h0 | ⟨h1, h2⟩
      · exact ⟨_, by rw [h0]⟩
      · exact ⟨.indexOutOfRange, by simp only [h1, h2]⟩

theorem registerOpenLoop_of_ge (batch : List Nat) :
    ∀ (r : register) (out : List Nat), r.WF → (∃ i ∈ batch, MAXREG ≤ i) →
      ∃ e, registerOpenLoop r out batch = .error e := by
  induction batch with
  | nil =>
    intro r out _ h
    obtain ⟨i, hi, _⟩ := h
    exact absurd hi (List.not_mem_nil i)
  | cons a rest ih =>
    intro r out hr h
    by_cases ha : a < MAXREG
    · rw [registerOpenLoop_cons hr ha]
      apply ih _ _ (register.clearBit_WF hr a)
      obtain ⟨i, hi, hge⟩ := h
      rcases List.mem_cons.mp hi with e | e
      · omega
      · exact ⟨i, e, hge⟩
    · rw [registerOpenLoop]
      rcases offset_word_of_ge hr (Nat.le_of_not_lt ha) with h0 | ⟨h1, h2⟩
      · exact ⟨_, by rw [h0]⟩
      · exact ⟨.indexOutOfRange, by simp only [h1, h2]⟩

theorem registerToggleLoop_of_ge (batch : List Nat) :
    ∀ (r : register) (closed opened : List Nat), r.WF → (∃ i ∈ batch, MAXREG ≤ i) →
      ∃ e, registerToggleLoop r closed opened batch = .error e := by
  induction batch with
  | nil =>
    intro r closed opened _ h
    obtain ⟨i, hi, _⟩ := h
    exact absurd hi (List.not_mem_nil i)
  | cons a rest ih =>
    intro r closed opened hr h
    by_cases ha : a < MAXREG
    · rw [registerToggleLoop_step hr ha]
      apply ih _ _ _ (register.flipBit_WF hr a)
      obtain ⟨i, hi, hge⟩ := h
      rcases List.mem_cons.mp hi with e | e
      · omega
      · exact ⟨i, e, hge⟩
    · rw [registerToggleLoop]
      rcases offset_word_of_ge hr (Nat.le_of_not_lt ha) with h0 | ⟨h1, h2⟩
      · exact ⟨_, by rw [h0]⟩
      · exact ⟨.indexOutOfRange, by simp only [h1, h2]⟩

theorem registerAllClosed_ok (r : register) (hr : r.WF) (batch : List Nat)
    (hb : ∀ i ∈ batch, i < MAXREG) : ∃ b, registerAllClosed r batch = .ok b := by
  induction batch with
  | nil => exact ⟨true, rfl⟩
  | cons a rest ih =>
    rw [registerAllClosed, registerClosed_eq hr (hb a (List.mem_cons_self _ _))]
    obtain ⟨b, h⟩ := ih (fun k hk => hb k (List.mem_cons_of_mem _ hk))
    cases r.bit a
    · exact ⟨false, rfl⟩
    · exact ⟨b, h⟩

theorem registerAnyClosed_ok (r : register) (hr : r.WF) (batch : List Nat)
    (hb : ∀ i ∈ batch, i < MAXREG) : ∃ b, registerAnyClosed r batch = .ok b := by
  induction batch with
  | nil => exact ⟨false, rfl⟩
  | cons a rest ih =>
    rw [registerAnyClosed, registerClosed_eq hr (hb a (List.mem_cons_self _ _))]
    obtain ⟨b, h⟩ := ih (fun k hk => hb k (List.mem_cons_of_mem _ hk))
    cases r.bit a
    · exact ⟨b, h⟩
    · exact ⟨true, rfl⟩

theorem registerAllOpened_ok (r : register) (hr : r.WF) (batch : List Nat)
    (hb : ∀ i ∈ batch, i < MAXREG) : ∃ b, registerAllOpened r batch = .ok b := by
  induction batch with
  | nil => exact ⟨true, rfl⟩
  | cons a rest ih =>
    rw [registerAllOpened, registerOpened_eq hr (hb a (List.mem_cons_self _ _))]
    obtain ⟨b, h⟩ := ih (fun k hk => hb k (List.mem_cons_of_mem _ hk))
    cases r.bit a
    · exact ⟨b, h⟩
    · exact ⟨false, rfl⟩

theorem registerAnyOpened_ok (r : register) (hr : r.WF) (batch : List Nat)
    (hb : ∀ i ∈ batch, i < MAXREG) : ∃ b, registerAnyOpened r batch = .ok b := by
  induction batch with
  | nil => exact ⟨false, rfl⟩
  | cons a rest ih =>
    rw [registerAnyOpened, registerOpened_eq hr (hb a (List.mem_cons_self _ _))]
    obtain ⟨b, h⟩ := ih (fun k hk => hb k (List.mem_cons_of_mem _ hk))
    cases r.bit a
    · exact ⟨true, rfl⟩
    · exact ⟨b, h⟩

/-- A batch predicate whose loop ran through `pre` without returning goes on with the
rest of the batch. -/
theorem registerAllClosed_append (r : register) (pre l : List Nat)
    (h : registerAllClosed r pre = .ok true) :
    registerAllClosed r (pre ++ l) = registerAllClosed r l := by
  induction pre with
  | nil => rfl
  | cons a pre ih =>
    rw [registerAllClosed] at h
    rw [List.cons_append, registerAllClosed]
    cases hc : registerClosed r a with
    | error e => rw [hc] at h; cases h
    | ok b =>
      rw [hc] at h
      cases b
      · cases h
      · exact ih h

theorem registerAnyClosed_append (r : register) (pre l : List Nat)
    (h : registerAnyClosed r pre = .ok false) :
    registerAnyClosed r (pre ++ l) = registerAnyClosed r l := by
  induction pre with
  | nil => rfl
  | cons a pre ih =>
    rw [registerAnyClosed] at h
    rw [List.cons_append, registerAnyClosed]
    cases hc : registerClosed r a with
    | error e => rw [hc] at h; cases h
    | ok b =>
      rw [hc] at h
      cases b
      · exact ih h
      · cases h

theorem registerAllOpened_append (r : register) (pre l : List Nat)
    (h : registerAllOpened r pre = .ok true) :
    registerAllOpened r (pre ++ l) = registerAllOpened r l := by
  induction pre with
  | nil => rfl
  | cons a pre ih =>
    rw [registerAllOpened] at h
    rw [List.cons_append, registerAllOpened]
    cases hc : registerOpened r a with
    | error e => rw [hc] at h; cases h
    | ok b =>
      rw [hc] at h
      cases b
      · cases h
      · exact ih h

theorem registerAnyOpened_append (r : register) (pre l : List Nat)
    (h : registerAnyOpened r pre = .ok false) :
    registerAnyOpened r (pre ++ l) = registerAnyOpened r l := by
  induction pre with
  | nil => rfl
  | cons a pre ih =>
    rw [registerAnyOpened] at h
    rw [List.cons_append, registerAnyOpened]
    cases hc : registerOpened r a with
    | error e => rw [hc] at h; cases h
    | ok b =>
      rw [hc] at h
      cases b
      · exact ih h
      · cases h

/-- C12. The register operations return a result when every index they are given is
below `MAXREG`; they fail, returning no register and no answer, when they process an index
that is `MAXREG` or more: the single-index predicates on such an index, close, open and
toggle on a batch that holds one, and the batch predicates when their loop reaches one. -/
theorem index_validation (r : register) (hr : r.WF) :
    (∀ batch : List Nat, (∀ i ∈ batch, i < MAXREG) →
        (∃ v, registerClose r batch = .ok v) ∧ (∃ v, registerOpen r batch = .ok v) ∧
        (∃ v, registerToggle r batch = .ok v) ∧
        (∃ b, registerAllClosed r batch = .ok b) ∧ (∃ b, registerAnyClosed r batch = .ok b) ∧
        (∃ b, registerAllOpened r batch = .ok b) ∧ (∃ b, registerAnyOpened r batch = .ok b)) ∧
      (∀ i, i < MAXREG →
        (∃ b, registerClosed r i = .ok b) ∧ (∃ b, registerOpened r i = .ok b)) ∧
      (∀ i, MAXREG ≤ i →
        (∃ e, registerClosed r i = .error e) ∧ (∃ e, registerOpened r i = .error e)) ∧
      (∀ batch : List Nat, (∃ i ∈ batch, MAXREG ≤ i) →
        (∃ e, registerClose r batch = .error e) ∧ (∃ e, registerOpen r batch = .error e) ∧
        (∃ e, registerToggle r batch = .error e)) ∧
      (∀ (pre : List Nat) (i : Nat) (post : List Nat), MAXREG ≤ i →
        (registerAllClosed r pre = .ok true →
          ∃ e, registerAllClosed r (pre ++ i :: post) = .error e) ∧
        (registerAnyClosed r pre = .ok false →
          ∃ e, registerAnyClosed r (pre ++ i :: post) = .error e) ∧
        (registerAllOpened r pre = .ok true →
          ∃ e, registerAllOpened r (pre ++ i :: post) = .error e) ∧
        (registerAnyOpened r pre = .ok false →
          ∃ e, registerAnyOpened r (pre ++ i :: post) = .error e)) := by
  refine ⟨?_, ?_, ?_, ?_, ?_⟩
  · intro batch hb
    obtain ⟨r1, h1, _, _⟩ := registerCloseLoop_spec batch r [] hr hb
    obtain ⟨r2, h2, _, _⟩ := registerOpenLoop_spec batch r [] hr hb
    obtain ⟨r3, c3, o3, h3, _, _⟩ := registerToggleLoop_spec batch r [] [] hr hb
    exact ⟨⟨_, h1⟩, ⟨_, h2⟩, ⟨_, h3⟩, registerAllClosed_ok r hr batch hb,
      registerAnyClosed_ok r hr batch hb, registerAllOpened_ok r hr batch hb,
      registerAnyOpened_ok r hr batch hb⟩
  · intro i hi
    exact ⟨⟨_, registerClosed_eq hr hi⟩, ⟨_, registerOpened_eq hr hi⟩⟩
  · intro i hi
    exact ⟨registerClosed_of_ge hr hi, registerOpened_of_ge hr hi⟩
  · intro batch hb
    exact ⟨registerCloseLoop_of_ge batch r [] hr hb, registerOpenLoop_of_ge batch r [] hr hb,
      registerToggleLoop_of_ge batch r [] [] hr hb⟩
  · intro pre i post hi
    obtain ⟨e1, he1⟩ := registerClosed_of_ge hr hi
    obtain ⟨e2, he2⟩ := registerOpened_of_ge hr hi
    refine ⟨?_, ?_, ?_, ?_⟩
    · intro h
      rw [registerAllClosed_append r pre _ h, registerAllClosed, he1]
      exact ⟨e1, rfl⟩
    · intro h
      rw [registerAnyClosed_append r pre _ h, registerAnyClosed, he1]
      exact ⟨e1, rfl⟩
    · intro h
      rw [registerAllOpened_append r pre _ h, registerAllOpened, he2]
      exact ⟨e2, rfl⟩
    · intro h
      rw [registerAnyOpened_append r pre _ h, registerAnyOpened, he2]
      exact ⟨e2, rfl⟩

/-- On the empty register: the batch `1,4095,2` is closed without failure, the boundary
index `4096` and the index `4097` make the predicates and the three transitions fail, and
a batch predicate fails on `4096` once its loop has passed `1`. -/
theorem index_validation_witness :
    register.zero.WF ∧
      (∃ v, registerClose register.zero [1, 4095, 2] = .ok v) ∧
      (∃ e, registerClosed register.zero 4096 = .error e) ∧
      (∃ e, registerOpened register.zero 4097 = .error e) ∧
      (∃ e, registerClose register.zero [1, 4096, 2] = .error e) ∧
      (∃ e, registerToggle register.zero [1, 2, 4096] = .error e) ∧
      (∃ e, registerAllOpened register.zero ([1] ++ 4096 :: [2]) = .error e) ∧
      registerClosed register.zero 4096 = .error .indexOutOfRange ∧
      registerClosed register.zero 4097 = .error .overflow :=
  ⟨by decide,
    ((index_validation register.zero zero_WF).1 [1, 4095, 2] (by decide)).1,
    ((index_validation register.zero zero_WF).2.2.1 4096 (by decide)).1,
    ((index_validation register.zero zero_WF).2.2.1 4097 (by decide)).2,
    ((index_validation register.zero zero_WF).2.2.2.1 [1, 4096, 2]
      ⟨4096, by decide, by decide⟩).1,
    ((index_validation register.zero zero_WF).2.2.2.1 [1, 2, 4096]
      ⟨4096, by decide, by decide⟩).2.2,
    ((index_validation register.zero zero_WF).2.2.2.2 [1] 4096 [2] (by decide)).2.2.1
      (by decide),
    by decide, by decide⟩

/-! ## `offset` at the boundary -/

/-- The validator away from the boundary: above `4096` it fails with the overflow failure,
below `4096` it returns `(idx / 64, idx % 64)` with both positions below `64`. -/
theorem offset_away_from_boundary :
    (∀ idx, 4096 < idx → offset idx = .error .overflow) ∧
      (∀ idx, idx < 4096 →
        offset idx = .ok (idx / 64, idx % 64) ∧ idx / 64 < 64 ∧ idx % 64 < 64) := by
  refine ⟨?_, ?_⟩
  · intro idx h
    unfold offset
    rw [if_pos (show idx > MAXREG from h)]
  · intro idx h
    refine ⟨offset_of_lt h, ?_, ?_⟩ <;> omega

/-- C13. At the index `4096` the validator `offset` does not fail: it returns the word
position `64`, which is not a position of the register, and the bit position `0`; the
overflow failure starts at `4097`. -/
theorem offset_boundary :
    offset 4096 = .ok (64, 0) ∧ ¬ (64 < CAP) ∧ offset 4097 = .error .overflow := by
  decide

/-! ## Toggling an index twice in one batch -/

/-- C14, as stated, fails: toggling `5,5` on the empty register reports `5` in both
lists, so the lists are not empty. -/
theorem pair_toggle_is_reported :
    registerToggle register.zero [5, 5] = .ok (register.zero, [5], [5]) ∧
      ¬ ∃ r1, registerToggle register.zero [5, 5] = .ok (r1, [], []) := by
  have e : registerToggle register.zero [5, 5] = .ok (register.zero, [5], [5]) := by decide
  refine ⟨e, ?_⟩
  rintro ⟨r1, h⟩
  rw [e] at h
  injection h with h
  injection h with _ h
  injection h with h _
  exact absurd h (by decide)

/-- C14, amended. Toggling the batch `i, i` returns the register given and reports both
flips: the index is once in the closed list and once in the opened list. -/
theorem toggle_pair (r : register) (i : Nat) (hr : r.WF) (hi : i < MAXREG) :
    registerToggle r [i, i] = .ok (r, [i], [i]) := by
  have hv : ∀ k ∈ [i, i], k < MAXREG := by
    intro k hk
    simp only [List.mem_cons, List.mem_singleton, List.not_mem_nil, or_false, or_self] at hk
    rw [hk]
    exact hi
  have hfb : (r.flipBit i).bit i = !r.bit i := by
    rw [register.bit_flipBit hr hi]
    simp
  have hback : (r.flipBit i).flipBit i = r := by
    apply register.ext_bit (register.flipBit_WF (register.flipBit_WF hr i) i) hr
    intro j _
    rw [register.bit_flipBit (register.flipBit_WF hr i) hi, register.bit_flipBit hr hi,
      Bool.xor_assoc]
    simp
  unfold registerToggle
  rw [registerToggleLoop_step hr hi,
    registerToggleLoop_step (register.flipBit_WF hr i) hi, hback, hfb, registerToggleLoop]
  cases r.bit i <;> simp

/-- Toggling `7,7` on the register with exactly `1,2,3,4` closed, and toggling `3,3`. -/
theorem toggle_pair_witness :
    (⟨30 :: List.replicate 63 0⟩ : register).WF ∧ 7 < MAXREG ∧ 3 < MAXREG ∧
      registerToggle ⟨30 :: List.replicate 63 0⟩ [7, 7]
        = .ok (⟨30 :: List.replicate 63 0⟩, [7], [7]) ∧
      registerToggle ⟨30 :: List.replicate 63 0⟩ [3, 3]
        = .ok (⟨30 :: List.replicate 63 0⟩, [3], [3]) :=
  ⟨by decide, by decide, by decide,
    toggle_pair ⟨30 :: List.replicate 63 0⟩ 7 (by decide) (by decide),
    toggle_pair ⟨30 :: List.replicate 63 0⟩ 3 (by decide) (by decide)⟩

/-! ## The all-closed register -/

/-- C15. Every one of the 64 words of `registerWithAllClosed` is `2 ^ 64 - 1`; every valid
index is closed and not open in it; opening the empty batch returns it unchanged. -/
theorem registerWithAllClosed_spec :
    registerWithAllClosed.words.length = 64 ∧
      (∀ w ∈ registerWithAllClosed.words, w = 2 ^ 64 - 1) ∧
      (∀ j, j < 4096 →
        registerClosed registerWithAllClosed j = .ok true ∧
        registerOpened registerWithAllClosed j = .ok false) ∧
      registerOpen registerWithAllClosed [] = .ok (registerWithAllClosed, []) := by
  refine ⟨by decide, by decide, ?_, rfl⟩
  intro j hj
  have hj2 : j < MAXREG := hj
  rw [registerClosed_eq registerWithAllClosed_WF hj2,
    registerOpened_eq registerWithAllClosed_WF hj2, registerWithAllClosed_bit hj2]
  exact ⟨rfl, rfl⟩

/-- The first and the last condition of the all-closed register. -/
theorem registerWithAllClosed_spec_witness :
    registerClosed registerWithAllClosed 0 = .ok true ∧
      registerOpened registerWithAllClosed 4095 = .ok false :=
  ⟨(registerWithAllClosed_spec.2.2.1 0 (by decide)).1,
    (registerWithAllClosed_spec.2.2.1 4095 (by decide)).2⟩

/-! ## Context gating -/

/-- C16. With a context that is already cancelled or past its deadline, close, open and
toggle of the delegate, and `Close`, `Open` and `Toggle` of the machine, do nothing: the
register is the same and no event is sent, whatever the batch. -/
theorem cancelled_call_noop {W : Type} (d : delegate) (m : machine W) (ctx : Context)
    (batch : List Nat) (hc : ctx.done = true) :
    d.close ctx batch = .ok d ∧ d.open ctx batch = .ok d ∧ d.toggle ctx batch = .ok d ∧
      m.Close ctx batch = .ok m ∧ m.Open ctx batch = .ok m ∧ m.Toggle ctx batch = .ok m := by
  have h1 : ∀ d1 : delegate, d1.close ctx batch = .ok d1 := by
    intro d1
    unfold delegate.close
    rw [if_pos hc]
  have h2 : ∀ d1 : delegate, d1.open ctx batch = .ok d1 := by
    intro d1
    unfold delegate.open
    rw [if_pos hc]
  have h3 : ∀ d1 : delegate, d1.toggle ctx batch = .ok d1 := by
    intro d1
    unfold delegate.toggle
    rw [if_pos hc]
  refine ⟨h1 d, h2 d, h3 d, ?_, ?_, ?_⟩
  · unfold machine.Close
    rw [h1]
  · unfold machine.Open
    rw [h2]
  · unfold machine.Toggle
    rw [h3]

/-- The scenario `close(ctx, 0, 1, 2)`, cancel, `close(ctx, 3, 4, 5)`: the second call
changes nothing, and exactly `0, 1, 2` are closed, as after `registerClose` of `0, 1, 2` on
the empty register. -/
theorem cancelled_call_noop_witness :
    (Context.cancel ⟨1, false⟩).done = true ∧
      ∃ d1, newDelegate.close ⟨1, false⟩ [0, 1, 2] = .ok d1 ∧
        d1.close (Context.cancel ⟨1, false⟩) [3, 4, 5] = .ok d1 ∧
        d1.reg = ⟨7 :: List.replicate 63 0⟩ ∧
        registerClose register.zero [0, 1, 2] = .ok (d1.reg, [0, 1, 2]) ∧
        d1.changeChan = [⟨⟨1, false⟩, 0, true⟩, ⟨⟨1, false⟩, 1, true⟩, ⟨⟨1, false⟩, 2, true⟩] :=
  ⟨rfl, ⟨⟨7 :: List.replicate 63 0⟩,
      [⟨⟨1, false⟩, 0, true⟩, ⟨⟨1, false⟩, 1, true⟩, ⟨⟨1, false⟩, 2, true⟩]⟩,
    by decide,
    (cancelled_call_noop (W := Unit) _ (NewMachine []) (Context.cancel ⟨1, false⟩) [3, 4, 5]
      rfl).1,
    rfl, by decide, rfl⟩

/-! ## Dispatch -/

/-- C17. On a received event the loop of `Run` starts the handler registered for the index
of the event, with the context and the flag of the event, when there is one, and otherwise
the default handler, with the context, the index and the flag; it starts exactly one
handler per event, in the order of arrival. -/
theorem dispatch_resolution {W : Type} (m : machine W) (c : changeEvent) :
    (∀ f, m.changeMap c.state = some f →
        m.dispatch c = [Launch.single f c.ctx c.closed]) ∧
      (m.changeMap c.state = none →
        m.dispatch c = [Launch.default m.defaultChange c.ctx c.state c.closed]) ∧
      (m.dispatch c).length = 1 ∧
      (∀ rest, m.Run (c :: rest) = m.dispatch c ++ m.Run rest) ∧
      (∀ received : List changeEvent, (m.Run received).length = received.length) := by
  have hlen : ∀ e : changeEvent, (m.dispatch e).length = 1 := by
    intro e
    unfold machine.dispatch
    cases m.changeMap e.state <;> rfl
  refine ⟨?_, ?_, hlen c, fun _ => rfl, ?_⟩
  · intro f hf
    unfold machine.dispatch
    rw [hf]
  · intro hn
    unfold machine.dispatch
    rw [hn]
  · intro received
    induction received with
    | nil => rfl
    | cons e rest ih =>
      rw [machine.Run, List.length_append, hlen e, ih, List.length_cons]
      omega

/-- A machine with a handler for index `3`: an event on `3` starts that handler, an event
on `4` starts the default handler. -/
theorem dispatch_resolution_witness :
    (NewMachine [MachineOption.WithSingleStateChangeHandler
          (fun _ closed (w : List (Nat × Bool)) => (3, closed) :: w) 3]).dispatch
        ⟨⟨1, false⟩, 3, true⟩
        = [Launch.single (fun _ closed (w : List (Nat × Bool)) => (3, closed) :: w)
            ⟨1, false⟩ true] ∧
      (NewMachine [MachineOption.WithSingleStateChangeHandler
          (fun _ closed (w : List (Nat × Bool)) => (3, closed) :: w) 3]).dispatch
        ⟨⟨1, false⟩, 4, false⟩
        = [Launch.default (noopChangeHandler (List (Nat × Bool))) ⟨1, false⟩ 4 false] :=
  ⟨(dispatch_resolution _ ⟨⟨1, false⟩, 3, true⟩).1 _ rfl,
    (dispatch_resolution _ ⟨⟨1, false⟩, 4, false⟩).2.1 rfl⟩

/-! ## Configuration -/

theorem foldl_apply_changeMap {W : Type} (i : Nat) (post : List (MachineOption W))
    (h : ∀ o ∈ post, ∀ h2, o ≠ MachineOption.WithSingleStateChangeHandler h2 i)
    (m : machine W) :
    (post.foldl MachineOption.apply m).changeMap i = m.changeMap i := by
  induction post generalizing m with
  | nil => rfl
  | cons o os ih =>
    rw [List.foldl_cons, ih (fun e he => h e (List.mem_cons_of_mem _ he))]
    have ho := h o (List.mem_cons_self _ _)
    cases o with
    | WithDefaultChangeHandler handler => rfl
    | WithSingleStateChangeHandler handler condition =>
      have hne : ¬ i = condition := by
        intro e
        exact ho handler (by rw [e])
      simp only [MachineOption.apply, if_neg hne]
    | WithAllStatesClosed => rfl

theorem foldl_apply_defaultChange {W : Type} (post : List (MachineOption W))
    (h : ∀ o ∈ post, ∀ h2, o ≠ MachineOption.WithDefaultChangeHandler h2)
    (m : machine W) :
    (post.foldl MachineOption.apply m).defaultChange = m.defaultChange := by
  induction post generalizing m with
  | nil => rfl
  | cons o os ih =>
    rw [List.foldl_cons, ih (fun e he => h e (List.mem_cons_of_mem _ he))]
    have ho := h o (List.mem_cons_self _ _)
    cases o with
    | WithDefaultChangeHandler handler => exact absurd rfl (ho handler)
    | WithSingleStateChangeHandler handler condition => rfl
    | WithAllStatesClosed => rfl

/-- C18. In the machine built from a list of options, the handler of an index is the one
of the last `WithSingleStateChangeHandler` option for that index, and there is none when
no option names the index; the default handler is the one of the last
`WithDefaultChangeHandler` option, and the no-op handler when there is no such option. -/
theorem NewMachine_config {W : Type} (opts : List (MachineOption W)) :
    (∀ i,
        (∀ pre h post, opts = pre ++ MachineOption.WithSingleStateChangeHandler h i :: post →
          (∀ o ∈ post, ∀ h2, o ≠ MachineOption.WithSingleStateChangeHandler h2 i) →
          (NewMachine opts).changeMap i = some h) ∧
        ((∀ o ∈ opts, ∀ h2, o ≠ MachineOption.WithSingleStateChangeHandler h2 i) →
          (NewMachine opts).changeMap i = none)) ∧
      (∀ pre h post, opts = pre ++ MachineOption.WithDefaultChangeHandler h :: post →
        (∀ o ∈ post, ∀ h2, o ≠ MachineOption.WithDefaultChangeHandler h2) →
        (NewMachine opts).defaultChange = h) ∧
      ((∀ o ∈ opts, ∀ h2, o ≠ MachineOption.WithDefaultChangeHandler h2) →
        (NewMachine opts).defaultChange = noopChangeHandler W) := by
  refine ⟨fun i => ⟨?_, ?_⟩, ?_, ?_⟩
  · intro pre h post ho hpost
    unfold NewMachine
    rw [ho, List.foldl_append, List.foldl_cons, foldl_apply_changeMap i post hpost]
    simp only [MachineOption.apply, if_true]
  · intro hnone
    unfold NewMachine
    rw [foldl_apply_changeMap i opts hnone]
  · intro pre h post ho hpost
    unfold NewMachine
    rw [ho, List.foldl_append, List.foldl_cons, foldl_apply_defaultChange post hpost]
    rfl
  · intro hnone
    unfold NewMachine
    rw [foldl_apply_defaultChange opts hnone]

/-- Two handlers registered for index `3` and one for `5`: the second one for `3` is kept,
index `4` has none, and the default handler is the no-op one. -/
theorem NewMachine_config_witness :
    (NewMachine [MachineOption.WithSingleStateChangeHandler (fun _ _ (w : Nat) => w + 1) 3,
        MachineOption.WithSingleStateChangeHandler (fun _ _ (w : Nat) => w + 2) 3,
        MachineOption.WithSingleStateChangeHandler (fun _ _ (w : Nat) => w + 3) 5]).changeMap 3
        = some (fun _ _ (w : Nat) => w + 2) ∧
      (NewMachine [MachineOption.WithSingleStateChangeHandler (fun _ _ (w : Nat) => w + 1) 3,
        MachineOption.WithSingleStateChangeHandler (fun _ _ (w : Nat) => w + 2) 3,
        MachineOption.WithSingleStateChangeHandler (fun _ _ (w : Nat) => w + 3) 5]).changeMap 4
        = none ∧
      (NewMachine [MachineOption.WithSingleStateChangeHandler (fun _ _ (w : Nat) => w + 1) 3,
        MachineOption.WithSingleStateChangeHandler (fun _ _ (w : Nat) => w + 2) 3,
        MachineOption.WithSingleStateChangeHandler (fun _ _ (w : Nat) => w + 3) 5]).defaultChange
        = noopChangeHandler Nat := by
  refine ⟨?_, ?_, ?_⟩
  · exact ((NewMachine_config _).1 3).1
      [MachineOption.WithSingleStateChangeHandler (fun _ _ (w : Nat) => w + 1) 3]
      (fun _ _ (w : Nat) => w + 2)
      [MachineOption.WithSingleStateChangeHandler (fun _ _ (w : Nat) => w + 3) 5] rfl
      (by
        intro o ho h2 e
        rw [List.mem_singleton] at ho
        rw [ho] at e
        injection e with _ e2
        exact absurd e2 (by decide))
  · apply ((NewMachine_config _).1 4).2
    intro o ho h2 e
    simp only [List.mem_cons, List.mem_singleton, List.not_mem_nil, or_false] at ho
    rcases ho with ho | ho | ho <;>
    · rw [ho] at e
      injection e with _ e2
      exact absurd e2 (by decide)
  · apply (NewMachine_config _).2.2
    intro o ho h2 e
    simp only [List.mem_cons, List.mem_singleton, List.not_mem_nil, or_false] at ho
    rcases ho with ho | ho | ho <;>
    · rw [ho] at e
      cases e

/-! ## Toggle reports every occurrence -/

theorem registerToggleLoop_append (A : List Nat) :
    ∀ (r : register) (closed opened : List Nat) (B : List Nat), r.WF →
      (∀ i ∈ A, i < MAXREG) →
      ∀ (r1 : register) (c1 o1 : List Nat),
        registerToggleLoop r closed opened A = .ok (r1, c1, o1) →
        registerToggleLoop r closed opened (A ++ B) = registerToggleLoop r1 c1 o1 B := by
  induction A with
  | nil =>
    intro r closed opened B _ _ r1 c1 o1 h
    rw [registerToggleLoop] at h
    injection h with h
    injection h with h1 h
    injection h with h2 h3
    rw [List.nil_append, h1, h2, h3]
  | cons a rest ih =>
    intro r closed opened B hr hA r1 c1 o1 h
    have ha : a < MAXREG := hA a (List.mem_cons_self _ _)
    rw [registerToggleLoop_step hr ha] at h
    rw [List.cons_append, registerToggleLoop_step hr ha]
    exact ih _ _ _ B (register.flipBit_WF hr a) (fun k hk => hA k (List.mem_cons_of_mem _ hk))
      r1 c1 o1 h

theorem occurrenceRank_append_left (pre : List Nat) (i : Nat) {p : Nat}
    (hp : p < pre.length) : occurrenceRank (pre ++ [i]) p = occurrenceRank pre p := by
  unfold occurrenceRank
  rw [List.getD_append pre [i] 0 p hp, List.take_append_of_le_length (by omega)]

theorem landsInClosed_append_left (r : register) (pre : List Nat) (i : Nat) {p : Nat}
    (hp : p < pre.length) : landsInClosed r (pre ++ [i]) p = landsInClosed r pre p := by
  unfold landsInClosed
  rw [List.getD_append pre [i] 0 p hp, occurrenceRank_append_left pre i hp]

theorem getD_append_length (pre : List Nat) (i : Nat) :
    (pre ++ [i]).getD pre.length 0 = i := by
  rw [List.getD_eq_getElem?_getD, List.getElem?_append_right (le_refl _)]
  simp

theorem landsInClosed_last {r : register} (hr : r.WF) (pre : List Nat) {i : Nat}
    (hi : i < MAXREG) :
    landsInClosed r (pre ++ [i]) pre.length
      = !(r.bit i ^^ decide (pre.count i % 2 = 1)) := by
  have hrank : occurrenceRank (pre ++ [i]) pre.length = pre.count i + 1 := by
    unfold occurrenceRank
    rw [getD_append_length, List.take_of_length_le (by simp), List.count_append]
    simp
  unfold landsInClosed
  rw [getD_append_length, hrank, registerOpened_eq hr hi, registerClosed_eq hr hi]
  rcases Nat.mod_two_eq_zero_or_one (List.count i pre) with h | h
  · have h2 : (List.count i pre + 1) % 2 = 1 := by omega
    cases r.bit i <;> simp [h, h2]
  · have h2 : (List.count i pre + 1) % 2 = 0 := by omega
    cases r.bit i <;> simp [h, h2]

theorem report_snoc (g g1 : Nat → Bool) (pre : List Nat) (i : Nat)
    (hagree : ∀ p, p < pre.length → g1 p = g p) :
    ((List.range (pre ++ [i]).length).filter g1).map (fun p => (pre ++ [i]).getD p 0)
      = ((List.range pre.length).filter g).map (fun p => pre.getD p 0)
        ++ (if g1 pre.length then [i] else []) := by
  have hlen : (pre ++ [i]).length = pre.length + 1 := by simp
  rw [hlen, List.range_succ, List.filter_append, List.map_append]
  congr 1
  · have hf : (List.range pre.length).filter g1 = (List.range pre.length).filter g :=
      List.filter_congr (fun p hp => hagree p (List.mem_range.mp hp))
    rw [hf]
    apply List.map_congr_left
    intro p hp
    exact List.getD_append pre [i] 0 p (List.mem_range.mp (List.mem_filter.mp hp).1)
  · by_cases hg : g1 pre.length = true
    · simp [hg, getD_append_length]
    · simp [hg]

theorem toggleLoop_report (r : register) (hr : r.WF) (batch : List Nat) :
    (∀ i ∈ batch, i < MAXREG) →
      ∃ r1 c o, registerToggleLoop r [] [] batch = .ok (r1, c, o) ∧ r1.WF ∧
        (∀ j, r1.bit j = (r.bit j ^^ decide (batch.count j % 2 = 1))) ∧
        c = ((List.range batch.length).filter (fun p => landsInClosed r batch p)).map
              (fun p => batch.getD p 0) ∧
        o = ((List.range batch.length).filter (fun p => !landsInClosed r batch p)).map
              (fun p => batch.getD p 0) ∧
        c.Sublist batch ∧ o.Sublist batch ∧ c.length + o.length = batch.length := by
  induction batch using List.reverseRecOn with
  | nil =>
    intro _
    exact ⟨r, [], [], rfl, hr, by simp, rfl, rfl, List.Sublist.refl _, List.Sublist.refl _,
      rfl⟩
  | append_singleton pre i ih =>
    intro hb
    have hpre : ∀ k ∈ pre, k < MAXREG := fun k hk => hb k (List.mem_append_left _ hk)
    have hi : i < MAXREG := hb i (List.mem_append_right _ (List.mem_singleton_self i))
    obtain ⟨r1, c, o, h1, hwf1, hbit1, hc, ho, hsc, hso, hlen⟩ := ih hpre
    have hstep : registerToggleLoop r [] [] (pre ++ [i])
        = .ok (r1.flipBit i, if r1.bit i then c else c ++ [i],
            if r1.bit i then o ++ [i] else o) := by
      rw [registerToggleLoop_append pre r [] [] [i] hr hpre r1 c o h1,
        registerToggleLoop_step hwf1 hi, registerToggleLoop]
    have hlast : landsInClosed r (pre ++ [i]) pre.length = !r1.bit i := by
      rw [landsInClosed_last hr pre hi, hbit1 i]
    have ec := report_snoc (fun p => landsInClosed r pre p)
      (fun p => landsInClosed r (pre ++ [i]) p) pre i
      (fun p hp => landsInClosed_append_left r pre i hp)
    have eo := report_snoc (fun p => !landsInClosed r pre p)
      (fun p => !landsInClosed r (pre ++ [i]) p) pre i
      (fun p hp => by
        show (!landsInClosed r (pre ++ [i]) p) = !landsInClosed r pre p
        rw [landsInClosed_append_left r pre i hp])
    simp only [hlast, ← hc, ← ho] at ec eo
    refine ⟨_, _, _, hstep, register.flipBit_WF hwf1 i, ?_, ?_, ?_, ?_, ?_, ?_⟩
    · intro j
      rw [register.bit_flipBit hwf1 hi, hbit1 j, List.count_append, Bool.xor_assoc]
      congr 1
      by_cases hj : j = i
      · subst hj
        have hc1 : List.count j [j] = 1 := by simp
        rw [hc1]
        rcases Nat.mod_two_eq_zero_or_one (List.count j pre) with h | h
        · have h2 : (List.count j pre + 1) % 2 = 1 := by omega
          simp [h, h2]
        · have h2 : (List.count j pre + 1) % 2 = 0 := by omega
          simp [h, h2]
      · have hji : ¬ i = j := fun e => hj e.symm
        simp [hj, hji]
    · rw [ec]
      cases r1.bit i <;> simp
    · rw [eo]
      cases r1.bit i <;> simp
    · cases r1.bit i
      · exact hsc.append (List.Sublist.refl _)
      · exact hsc.trans (List.sublist_append_left _ _)
    · cases r1.bit i
      · exact hso.trans (List.sublist_append_left _ _)
      · exact hso.append (List.Sublist.refl _)
    · cases r1.bit i <;> simp <;> omega

/-- C20. Toggle reports every occurrence of the batch once: the two lists have together
the length of the batch; the occurrence of rank `k` of an index lands in the closed list
when the index is open in the register given and `k` is odd, or closed and `k` is even, and
in the opened list otherwise; each list keeps the order of the batch. -/
theorem registerToggle_report (r : register) (batch : List Nat) (hr : r.WF)
    (hb : ∀ i ∈ batch, i < MAXREG) :
    ∃ r1 closed opened, registerToggle r batch = .ok (r1, closed, opened) ∧
      closed.length + opened.length = batch.length ∧
      closed = ((List.range batch.length).filter (fun p => landsInClosed r batch p)).map
        (fun p => batch.getD p 0) ∧
      opened = ((List.range batch.length).filter (fun p => !landsInClosed r batch p)).map
        (fun p => batch.getD p 0) ∧
      closed.Sublist batch ∧ opened.Sublist batch := by
  obtain ⟨r1, c, o, h1, _, _, hc, ho, hsc, hso, hlen⟩ := toggleLoop_report r hr batch hb
  exact ⟨r1, c, o, h1, hlen, hc, ho, hsc, hso⟩

/-- On the register with exactly `1,2,3,4` closed, toggling `7,3,7,7,3,9`: the occurrences
of `7` (open) land closed, opened, closed; those of `3` (closed) land opened, closed;
`9` lands closed. -/
theorem registerToggle_report_witness :
    (⟨30 :: List.replicate 63 0⟩ : register).WF ∧ (∀ i ∈ [7, 3, 7, 7, 3, 9], i < MAXREG) ∧
      ∃ r1, registerToggle ⟨30 :: List.replicate 63 0⟩ [7, 3, 7, 7, 3, 9]
        = .ok (r1, [7, 7, 3, 9], [3, 7]) := by
  refine ⟨by decide, by decide, ?_⟩
  obtain ⟨r1, c, o, h1, _, hc, ho, _⟩ := registerToggle_report ⟨30 :: List.replicate 63 0⟩
    [7, 3, 7, 7, 3, 9] (by decide) (by decide)
  have e1 : ((List.range [7, 3, 7, 7, 3, 9].length).filter
      (fun p => landsInClosed ⟨30 :: List.replicate 63 0⟩ [7, 3, 7, 7, 3, 9] p)).map
      (fun p => [7, 3, 7, 7, 3, 9].getD p 0) = [7, 7, 3, 9] := by decide
  have e2 : ((List.range [7, 3, 7, 7, 3, 9].length).filter
      (fun p => !landsInClosed ⟨30 :: List.replicate 63 0⟩ [7, 3, 7, 7, 3, 9] p)).map
      (fun p => [7, 3, 7, 7, 3, 9].getD p 0) = [3, 7] := by decide
  rw [e1] at hc
  rw [e2] at ho
  rw [hc, ho] at h1
  exact ⟨r1, h1⟩

/-! ## Batch predicates as quantifiers -/

theorem registerAllClosed_eq (r : register) (hr : r.WF) (batch : List Nat)
    (hb : ∀ i ∈ batch, i < MAXREG) :
    registerAllClosed r batch = .ok (batch.all (fun i => r.bit i)) := by
  induction batch with
  | nil => rfl
  | cons a rest ih =>
    rw [registerAllClosed, registerClosed_eq hr (hb a (List.mem_cons_self _ _)),
      ih (fun k hk => hb k (List.mem_cons_of_mem _ hk)), List.all_cons]
    cases r.bit a <;> rfl

theorem registerAnyClosed_eq (r : register) (hr : r.WF) (batch : List Nat)
    (hb : ∀ i ∈ batch, i < MAXREG) :
    registerAnyClosed r batch = .ok (batch.any (fun i => r.bit i)) := by
  induction batch with
  | nil => rfl
  | cons a rest ih =>
    rw [registerAnyClosed, registerClosed_eq hr (hb a (List.mem_cons_self _ _)),
      ih (fun k hk => hb k (List.mem_cons_of_mem _ hk)), List.any_cons]
    cases r.bit a <;> rfl

theorem registerAllOpened_eq (r : register) (hr : r.WF) (batch : List Nat)
    (hb : ∀ i ∈ batch, i < MAXREG) :
    registerAllOpened r batch = .ok (batch.all (fun i => !r.bit i)) := by
  induction batch with
  | nil => rfl
  | cons a rest ih =>
    rw [registerAllOpened, registerOpened_eq hr (hb a (List.mem_cons_self _ _)),
      ih (fun k hk => hb k (List.mem_cons_of_mem _ hk)), List.all_cons]
    cases r.bit a <;> rfl

theorem registerAnyOpened_eq (r : register) (hr : r.WF) (batch : List Nat)
    (hb : ∀ i ∈ batch, i < MAXREG) :
    registerAnyOpened r batch = .ok (batch.any (fun i => !r.bit i)) := by
  induction batch with
  | nil => rfl
  | cons a rest ih =>
    rw [registerAnyOpened, registerOpened_eq hr (hb a (List.mem_cons_self _ _)),
      ih (fun k hk => hb k (List.mem_cons_of_mem _ hk)), List.any_cons]
    cases r.bit a <;> rfl

theorem closed_true_iff_bit {r : register} (hr : r.WF) {i : Nat} (hi : i < MAXREG) :
    registerClosed r i = .ok true ↔ r.bit i = true := by
  rw [registerClosed_eq hr hi]
  cases r.bit i <;> simp

theorem opened_true_iff_bit {r : register} (hr : r.WF) {i : Nat} (hi : i < MAXREG) :
    registerOpened r i = .ok true ↔ r.bit i = false := by
  rw [registerOpened_eq hr hi]
  cases r.bit i <;> simp

/-- C21. On a batch of valid indices each batch predicate returns an answer:
`registerAllClosed` is true exactly when every index of the batch is closed,
`registerAnyClosed` exactly when some index is closed, `registerAllOpened` and
`registerAnyOpened` likewise with open; on the empty batch the two `All` predicates are
true and the two `Any` predicates false. The predicates return a Boolean only: no register
comes back from them. -/
theorem batch_predicates (r : register) (batch : List Nat) (hr : r.WF)
    (hb : ∀ i ∈ batch, i < MAXREG) :
    (∃ b, registerAllClosed r batch = .ok b ∧
        (b = true ↔ ∀ i ∈ batch, registerClosed r i = .ok true)) ∧
      (∃ b, registerAnyClosed r batch = .ok b ∧
        (b = true ↔ ∃ i ∈ batch, registerClosed r i = .ok true)) ∧
      (∃ b, registerAllOpened r batch = .ok b ∧
        (b = true ↔ ∀ i ∈ batch, registerOpened r i = .ok true)) ∧
      (∃ b, registerAnyOpened r batch = .ok b ∧
        (b = true ↔ ∃ i ∈ batch, registerOpened r i = .ok true)) ∧
      registerAllClosed r [] = .ok true ∧ registerAnyClosed r [] = .ok false ∧
      registerAllOpened r [] = .ok true ∧ registerAnyOpened r [] = .ok false := by
  refine ⟨⟨_, registerAllClosed_eq r hr batch hb, ?_⟩, ⟨_, registerAnyClosed_eq r hr batch hb, ?_⟩,
    ⟨_, registerAllOpened_eq r hr batch hb, ?_⟩, ⟨_, registerAnyOpened_eq r hr batch hb, ?_⟩,
    rfl, rfl, rfl, rfl⟩
  · rw [List.all_eq_true]
    exact forall_congr' (fun i => forall_congr' (fun hi =>
      (closed_true_iff_bit hr (hb i hi)).symm))
  · rw [List.any_eq_true]
    constructor
    · rintro ⟨i, hi, h⟩
      exact ⟨i, hi, (closed_true_iff_bit hr (hb i hi)).mpr h⟩
    · rintro ⟨i, hi, h⟩
      exact ⟨i, hi, (closed_true_iff_bit hr (hb i hi)).mp h⟩
  · rw [List.all_eq_true]
    refine forall_congr' (fun i => forall_congr' (fun hi => ?_))
    rw [opened_true_iff_bit hr (hb i hi)]
    cases r.bit i <;> simp
  · rw [List.any_eq_true]
    constructor
    · rintro ⟨i, hi, h⟩
      refine ⟨i, hi, (opened_true_iff_bit hr (hb i hi)).mpr ?_⟩
      revert h
      cases r.bit i <;> simp
    · rintro ⟨i, hi, h⟩
      refine ⟨i, hi, ?_⟩
      rw [(opened_true_iff_bit hr (hb i hi)).mp h]
      rfl

/-- On the register with exactly `1,2,3,4` closed: `1,2,3` are all closed, `3,7` are not
all closed but some is, `7,9` are all open, and the batch `1,7` has an open index. -/
theorem batch_predicates_witness :
    (⟨30 :: List.replicate 63 0⟩ : register).WF ∧ (∀ i ∈ [3, 7], i < MAXREG) ∧
      (∃ b, registerAllClosed ⟨30 :: List.replicate 63 0⟩ [3, 7] = .ok b ∧
        (b = true ↔
          ∀ i ∈ [3, 7], registerClosed ⟨30 :: List.replicate 63 0⟩ i = .ok true)) ∧
      registerAllClosed ⟨30 :: List.replicate 63 0⟩ [1, 2, 3] = .ok true ∧
      registerAllClosed ⟨30 :: List.replicate 63 0⟩ [3, 7] = .ok false ∧
      registerAnyClosed ⟨30 :: List.replicate 63 0⟩ [3, 7] = .ok true ∧
      registerAllOpened ⟨30 :: List.replicate 63 0⟩ [7, 9] = .ok true ∧
      registerAnyOpened ⟨30 :: List.replicate 63 0⟩ [1, 7] = .ok true ∧
      registerAnyOpened ⟨30 :: List.replicate 63 0⟩ [1, 2] = .ok false :=
  ⟨by decide, by decide,
    (batch_predicates ⟨30 :: List.replicate 63 0⟩ [3, 7] (by decide) (by decide)).1,
    by decide, by decide, by decide, by decide, by decide, by decide⟩

/-! ## Toggle is an involution -/

/-- C22. Toggling any batch of valid indices, with duplicates in any order, twice in
succession returns the register given. -/
theorem toggle_involution (r : register) (batch : List Nat) (hr : r.WF)
    (hb : ∀ i ∈ batch, i < MAXREG) :
    ∃ r1 c1 o1 c2 o2, registerToggle r batch = .ok (r1, c1, o1) ∧
      registerToggle r1 batch = .ok (r, c2, o2) := by
  obtain ⟨r1, c1, o1, h1, hwf1, hbit1⟩ := registerToggleLoop_spec batch r [] [] hr hb
  obtain ⟨r2, c2, o2, h2, hwf2, hbit2⟩ := registerToggleLoop_spec batch r1 [] [] hwf1 hb
  have hr2 : r2 = r := by
    apply register.ext_bit hwf2 hr
    intro j _
    rw [hbit2 j, hbit1 j, Bool.xor_assoc]
    simp
  rw [hr2] at h2
  exact ⟨r1, c1, o1, c2, o2, h1, h2⟩

/-- Toggling `7,3,7,7,3,9` twice on the register with exactly `1,2,3,4` closed. -/
theorem toggle_involution_witness :
    (⟨30 :: List.replicate 63 0⟩ : register).WF ∧ (∀ i ∈ [7, 3, 7, 7, 3, 9], i < MAXREG) ∧
      (∃ r1 c1 o1 c2 o2,
        registerToggle ⟨30 :: List.replicate 63 0⟩ [7, 3, 7, 7, 3, 9] = .ok (r1, c1, o1) ∧
          registerToggle r1 [7, 3, 7, 7, 3, 9]
            = .ok (⟨30 :: List.replicate 63 0⟩, c2, o2)) ∧
      registerToggle ⟨30 :: List.replicate 63 0⟩ [7, 3, 7, 7, 3, 9]
        = .ok (⟨670 :: List.replicate 63 0⟩, [7, 7, 3, 9], [3, 7]) ∧
      registerToggle ⟨670 :: List.replicate 63 0⟩ [7, 3, 7, 7, 3, 9]
        = .ok (⟨30 :: List.replicate 63 0⟩, [7, 3], [7, 3, 7, 9]) :=
  ⟨by decide, by decide,
    toggle_involution ⟨30 :: List.replicate 63 0⟩ [7, 3, 7, 7, 3, 9] (by decide)
      (by decide),
    by decide, by decide⟩

/-! ## Open and closed are complements -/

theorem not_all_bit (r : register) (batch : List Nat) :
    (!batch.all (fun i => r.bit i)) = batch.any (fun i => !r.bit i) := by
  induction batch with
  | nil => rfl
  | cons a rest ih =>
    rw [List.all_cons, List.any_cons, ← ih]
    cases r.bit a <;> simp

theorem not_all_not_bit (r : register) (batch : List Nat) :
    (!batch.all (fun i => !r.bit i)) = batch.any (fun i => r.bit i) := by
  induction batch with
  | nil => rfl
  | cons a rest ih =>
    rw [List.all_cons, List.any_cons, ← ih]
    cases r.bit a <;> simp

/-- C23. On a valid index `registerOpened` answers the negation of `registerClosed`; on a
batch of valid indices `registerAnyOpened` answers the negation of `registerAllClosed`, and
`registerAnyClosed` the negation of `registerAllOpened`. -/
theorem opened_closed_complement (r : register) (hr : r.WF) :
    (∀ i, i < MAXREG →
        ∃ b, registerClosed r i = .ok b ∧ registerOpened r i = .ok (!b)) ∧
      (∀ batch : List Nat, (∀ i ∈ batch, i < MAXREG) →
        (∃ b, registerAllClosed r batch = .ok b ∧ registerAnyOpened r batch = .ok (!b)) ∧
        (∃ b, registerAllOpened r batch = .ok b ∧ registerAnyClosed r batch = .ok (!b))) := by
  constructor
  · intro i hi
    exact ⟨_, registerClosed_eq hr hi, registerOpened_eq hr hi⟩
  · intro batch hb
    constructor
    · refine ⟨_, registerAllClosed_eq r hr batch hb, ?_⟩
      rw [registerAnyOpened_eq r hr batch hb, not_all_bit]
    · refine ⟨_, registerAllOpened_eq r hr batch hb, ?_⟩
      rw [registerAnyClosed_eq r hr batch hb, not_all_not_bit]

/-- On the register with exactly `1,2,3,4` closed: index `3`, index `7` and the batch
`3,7`. -/
theorem opened_closed_complement_witness :
    (⟨30 :: List.replicate 63 0⟩ : register).WF ∧
      (∃ b, registerClosed ⟨30 :: List.replicate 63 0⟩ 3 = .ok b ∧
        registerOpened ⟨30 :: List.replicate 63 0⟩ 3 = .ok (!b)) ∧
      (∃ b, registerAllClosed ⟨30 :: List.replicate 63 0⟩ [3, 7] = .ok b ∧
        registerAnyOpened ⟨30 :: List.replicate 63 0⟩ [3, 7] = .ok (!b)) ∧
      (∃ b, registerAllOpened ⟨30 :: List.replicate 63 0⟩ [3, 7] = .ok b ∧
        registerAnyClosed ⟨30 :: List.replicate 63 0⟩ [3, 7] = .ok (!b)) ∧
      registerClosed ⟨30 :: List.replicate 63 0⟩ 3 = .ok true ∧
      registerOpened ⟨30 :: List.replicate 63 0⟩ 3 = .ok false ∧
      registerAllClosed ⟨30 :: List.replicate 63 0⟩ [3, 7] = .ok false ∧
      registerAnyOpened ⟨30 :: List.replicate 63 0⟩ [3, 7] = .ok true :=
  ⟨by decide,
    (opened_closed_complement ⟨30 :: List.replicate 63 0⟩ (by decide)).1 3 (by decide),
    ((opened_closed_complement ⟨30 :: List.replicate 63 0⟩ (by decide)).2 [3, 7]
      (by decide)).1,
    ((opened_closed_complement ⟨30 :: List.replicate 63 0⟩ (by decide)).2 [3, 7]
      (by decide)).2,
    by decide, by decide, by decide, by decide⟩

end flipflop
